import Mathlib

/-!
Verification of the rust-audio-engine core against its specification.

The Rust sources are shallowly embedded in Lean:

* `usize` node identifiers become `ℕ`.
* `f32` audio samples become `ℚ` (exact arithmetic; every concrete sample
  value appearing in the claims is exactly representable in `f32`, and the
  only operations the embedded code performs on samples are copy, add and
  comparison-free arithmetic, so the rational embedding is faithful on the
  inputs considered).  The transcendental `sin` of the sine generator is
  embedded as a real-valued function of the rational phase.
* `HashMap<K, V>` becomes an insertion-ordered association list
  `List (ℕ × V)` with unique keys; all properties proved about it are
  insensitive to the iteration order of the keys, so the choice of
  insertion order as iteration order is harmless.
* `HashSet<T>` becomes `Finset ℕ`.
* Functions that mutate `&mut self` become state-passing functions.

Each embedded definition carries a comment naming the Rust item it
translates (all paths relative to the repository root).
-/

/-! ## Association list helpers (embedding of `std::collections::HashMap`) -/

/-- `HashMap::get`: first value bound to key `k`. -/
def assocGet {α : Type} (m : List (ℕ × α)) (k : ℕ) : Option α :=
  match m with
  | [] => none
  | (k', v) :: rest => if k' = k then some v else assocGet rest k

/-- `HashMap::contains_key`. -/
def containsKey {α : Type} (m : List (ℕ × α)) (k : ℕ) : Bool :=
  (assocGet m k).isSome

/-- The keys of the map, in iteration order. -/
def mapKeys {α : Type} (m : List (ℕ × α)) : List ℕ :=
  m.map Prod.fst

/-- `HashMap::get_mut` followed by an in-place update of the value
(written as a recursion over the entry list; it rewrites the value bound
to `k` and leaves every other entry alone). -/
def assocUpdate {α : Type} : List (ℕ × α) → ℕ → (α → α) → List (ℕ × α)
  | [], _, _ => []
  | (k', v) :: rest, k, f =>
    (if k' = k then (k', f v) else (k', v)) :: assocUpdate rest k f

theorem assocGet_eq_none_of_not_mem_keys {α : Type} (m : List (ℕ × α)) (k : ℕ)
    (h : k ∉ mapKeys m) : assocGet m k = none := by
  induction m with
  | nil => rfl
  | cons e rest ih =>
    obtain ⟨k', v⟩ := e
    simp only [mapKeys, List.map_cons, List.mem_cons] at h
    push_neg at h
    rw [assocGet, if_neg (Ne.symm h.1), ih (by simpa [mapKeys] using h.2)]

theorem assocGet_isSome_iff_mem_keys {α : Type} (m : List (ℕ × α)) (k : ℕ) :
    (assocGet m k).isSome = true ↔ k ∈ mapKeys m := by
  induction m with
  | nil => simp [assocGet, mapKeys]
  | cons e rest ih =>
    obtain ⟨k', v⟩ := e
    simp only [mapKeys, List.map_cons, List.mem_cons] at ih ⊢
    by_cases hk : k' = k
    · subst hk
      rw [assocGet, if_pos rfl]
      simp
    · rw [assocGet, if_neg hk, ih]
      constructor
      · intro hm; exact Or.inr hm
      · rintro (rfl | hm)
        · exact absurd rfl hk
        · exact hm

theorem containsKey_iff_mem_keys {α : Type} (m : List (ℕ × α)) (k : ℕ) :
    containsKey m k = true ↔ k ∈ mapKeys m := by
  unfold containsKey
  exact assocGet_isSome_iff_mem_keys m k

theorem assocGet_mem {α : Type} (m : List (ℕ × α)) (k : ℕ) (v : α)
    (h : assocGet m k = some v) : (k, v) ∈ m := by
  induction m with
  | nil => simp [assocGet] at h
  | cons e rest ih =>
    obtain ⟨k', w⟩ := e
    by_cases hk : k' = k
    · subst hk
      rw [assocGet, if_pos rfl] at h
      cases h
      exact List.mem_cons_self _ _
    · rw [assocGet, if_neg hk] at h
      exact List.mem_cons_of_mem _ (ih h)

theorem assocGet_of_mem_nodup {α : Type} (m : List (ℕ × α)) (k : ℕ) (v : α)
    (hnd : (mapKeys m).Nodup) (h : (k, v) ∈ m) : assocGet m k = some v := by
  induction m with
  | nil => simp at h
  | cons e rest ih =>
    obtain ⟨k', w⟩ := e
    simp only [mapKeys, List.map_cons, List.nodup_cons] at hnd
    rcases List.mem_cons.mp h with heq | hmem
    · cases heq
      rw [assocGet, if_pos rfl]
    · have hk : k' ≠ k := by
        rintro rfl
        exact hnd.1 (List.mem_map.mpr ⟨(k', v), hmem, rfl⟩)
      rw [assocGet, if_neg hk]
      exact ih hnd.2 hmem

theorem assocGet_assocUpdate_ne {α : Type} (m : List (ℕ × α)) (k q : ℕ) (f : α → α)
    (h : q ≠ k) : assocGet (assocUpdate m k f) q = assocGet m q := by
  induction m with
  | nil => rfl
  | cons e rest ih =>
    obtain ⟨k', v⟩ := e
    rw [assocUpdate]
    by_cases hk : k' = k
    · have hkq : ¬ (k' = q) := fun hq => h (hq.symm.trans hk)
      rw [if_pos hk, assocGet, if_neg hkq, assocGet, if_neg hkq]
      exact ih
    · by_cases hq : k' = q
      · rw [if_neg hk, assocGet, if_pos hq, assocGet, if_pos hq]
      · rw [if_neg hk, assocGet, if_neg hq, assocGet, if_neg hq]
        exact ih

theorem assocGet_assocUpdate_self {α : Type} (m : List (ℕ × α)) (k : ℕ) (f : α → α)
    (v : α) (h : assocGet m k = some v) :
    assocGet (assocUpdate m k f) k = some (f v) := by
  induction m with
  | nil => simp [assocGet] at h
  | cons e rest ih =>
    obtain ⟨k', w⟩ := e
    rw [assocUpdate]
    by_cases hk : k' = k
    · rw [assocGet, if_pos hk] at h
      cases h
      rw [if_pos hk, assocGet, if_pos hk]
    · rw [assocGet, if_neg hk] at h
      rw [if_neg hk, assocGet, if_neg hk]
      exact ih h

theorem mapKeys_assocUpdate {α : Type} (m : List (ℕ × α)) (k : ℕ) (f : α → α) :
    mapKeys (assocUpdate m k f) = mapKeys m := by
  induction m with
  | nil => rfl
  | cons e rest ih =>
    obtain ⟨k', v⟩ := e
    rw [assocUpdate]
    by_cases hk : k' = k
    · rw [if_pos hk]
      simp only [mapKeys, List.map_cons] at ih ⊢
      rw [ih]
    · rw [if_neg hk]
      simp only [mapKeys, List.map_cons] at ih ⊢
      rw [ih]

/-! ## DirectedGraph (src/directed_graph.rs; the identically shaped module
`audio_engine_core/src/directed_graph.rs` is declared by
`audio_engine_core/src/lib.rs` and consumed through the same public API
by `audio_engine_core/src/audio_graph.rs`). -/

/-- The successor list of `k`: `adjacency_list.get(&k)` with a missing key
reading as the empty list (the Rust code always guards lookups with
`if let Some`). -/
def succList (m : List (ℕ × List ℕ)) (k : ℕ) : List ℕ :=
  (assocGet m k).getD []

/-- `struct DirectedGraph<T>` with `T = usize`
(src/directed_graph.rs lines 9-21). -/
structure DirectedGraph where
  adjacency_list : List (ℕ × List ℕ)
  cached_topo_sort : List ℕ
  cached_reverse_topo_sort : List ℕ
  cached_input_nodes : List (ℕ × List ℕ)
deriving DecidableEq

/-- `DirectedGraph::new` (src/directed_graph.rs lines 31-38). -/
def DirectedGraph.new : DirectedGraph :=
  { adjacency_list := []
    cached_topo_sort := []
    cached_reverse_topo_sort := []
    cached_input_nodes := [] }

/-- All identifiers mentioned by the adjacency list: its keys together with
every successor.  This is the finite universe the depth-first searches can
ever mark; it only serves to bound their recursion. -/
def graphUniv (m : List (ℕ × List ℕ)) : Finset ℕ :=
  (m.map Prod.fst ++ m.flatMap Prod.snd).toFinset

/-- `DirectedGraph::would_create_cycle` (src/directed_graph.rs lines
171-193): iterative depth-first search from `to_id` over the current
edges, returning `true` iff it meets `from_id`.  The explicit `stack` and
`visited` set mirror the Rust loop; neighbours are pushed in list order so
they are popped in reverse order, hence the `.reverse` on prepend.  The
`fuel` argument decreases once per loop iteration; the Rust loop performs
at most `wccFuel` iterations (one pop per iteration, and pushes happen
only when a node enters `visited`), so starting from `wccFuel` the
zero-fuel branch is unreachable and the function computes exactly what
the Rust loop computes (`wccAux_sound` below subsumes this). -/
def wccAux (m : List (ℕ × List ℕ)) (from_id : ℕ) : ℕ → List ℕ → Finset ℕ → Bool
  | 0, _, _ => false
  | _ + 1, [], _ => false
  | fuel + 1, current :: stack, visited =>
    if current = from_id then true
    else if current ∈ visited then wccAux m from_id fuel stack visited
    else
      wccAux m from_id fuel ((succList m current).reverse ++ stack) (insert current visited)

/-- An upper bound (plus one) on the number of iterations of the
`would_create_cycle` loop started on one seed node: one pop for the seed
and at most one pop per successor-list entry of each distinct node. -/
def wccFuel (m : List (ℕ × List ℕ)) : ℕ :=
  (graphUniv m).sum (fun x => (succList m x).length) + 2

/-- `DirectedGraph::visit` (src/directed_graph.rs lines 221-256) run
sequentially on a worklist of nodes that share the same set of temporary
marks.  `visitList m fuel ns temp visited result` performs, in order, the
recursive three-mark DFS visit of each node of `ns`:

* a node carrying a temporary mark, or already visited, is skipped;
* otherwise its neighbours are visited with the temporary mark added
  (the Rust code inserts the mark before the neighbour loop and removes
  it afterwards, and `visit` restores the mark set on exit, so passing
  `temp` unchanged to the continuation is the same mutation discipline),
  after which the node is marked visited and appended to the result.

The `fuel` argument decreases on every recursive call and only serves to
exhibit the (in Rust, implicit) termination of the recursion; started
from `visitFuel` the zero-fuel branch is unreachable on the closed
adjacency lists the graph maintains, so the function computes exactly
what the Rust recursion computes (the sufficiency bookkeeping is carried
through `visitList_spec` below). -/
def visitList (m : List (ℕ × List ℕ)) :
    ℕ → List ℕ → Finset ℕ → Finset ℕ → List ℕ → Finset ℕ × List ℕ
  | _, [], _, visited, result => (visited, result)
  | 0, _ :: _, _, visited, result => (visited, result)
  | fuel + 1, n :: ns, temp, visited, result =>
    if n ∈ temp then
      visitList m fuel ns temp visited result
    else if n ∈ visited then
      visitList m fuel ns temp visited result
    else
      let vr := visitList m fuel (succList m n) (insert n temp) visited result
      visitList m fuel ns temp (insert n vr.1) (vr.2 ++ [n])

/-- The fuel handed to the DFS: strictly more than the number of calls
the Rust recursion can make when started on the key list. -/
def visitFuel (m : List (ℕ × List ℕ)) : ℕ :=
  (mapKeys m).length
    + (mapKeys m).toFinset.sum (fun x => 1 + (succList m x).length) + 1

/-- `DirectedGraph::topological_sort` (src/directed_graph.rs lines
202-215): visit every key of the adjacency list in iteration order with
an initially empty mark set.  (The Rust guard `if !visited.contains` is
subsumed by the identical check at the head of `visit`.) -/
def topological_sort (m : List (ℕ × List ℕ)) : List ℕ :=
  (visitList m (visitFuel m) (mapKeys m) ∅ ∅ []).2

/-- One iteration of the inner loop of
`DirectedGraph::update_input_nodes_cache`: `input_nodes.get_mut(&dst_id)`
appends `src_id`, and a missing destination key is skipped. -/
def pushInput (acc : List (ℕ × List ℕ)) (dst src : ℕ) : List (ℕ × List ℕ) :=
  assocUpdate acc dst (fun inputs => inputs ++ [src])

/-- `DirectedGraph::update_input_nodes_cache` (src/directed_graph.rs lines
301-319): start from every key mapped to `[]`, then for each edge
`src → dst` append `src` to the inputs of `dst`. -/
def computeInputNodes (m : List (ℕ × List ℕ)) : List (ℕ × List ℕ) :=
  m.foldl
    (fun acc e => e.2.foldl (fun acc2 dst => pushInput acc2 dst e.1) acc)
    (m.map (fun e => (e.1, ([] : List ℕ))))

/-- `DirectedGraph::update_cache` together with
`update_topological_sort_cache` (src/directed_graph.rs lines 258-273):
recompute the topological sort, its reverse, and the predecessor index. -/
def update_cache (g : DirectedGraph) : DirectedGraph :=
  { g with
    cached_topo_sort := topological_sort g.adjacency_list
    cached_reverse_topo_sort := (topological_sort g.adjacency_list).reverse
    cached_input_nodes := computeInputNodes g.adjacency_list }

/-- `DirectedGraph::add_node` (src/directed_graph.rs lines 50-59). -/
def DirectedGraph.add_node (g : DirectedGraph) (node_id : ℕ) : Bool × DirectedGraph :=
  if containsKey g.adjacency_list node_id then (false, g)
  else
    (true, update_cache { g with adjacency_list := g.adjacency_list ++ [(node_id, [])] })

/-- The tagged error kinds of the topology operations.  The Rust code
returns `Err(String)` with a distinct message per failure; the enum
abstracts the message text (spec section 7 names the same tags). -/
inductive GraphError : Type
  | nodeNotFound (id : ℕ)
  | cycleWouldForm
deriving DecidableEq

instance {α β : Type} [DecidableEq α] [DecidableEq β] : DecidableEq (Except α β) := by
  intro a b
  cases a with
  | error ea =>
    cases b with
    | error eb =>
      exact decidable_of_iff (ea = eb) ⟨fun h => by rw [h], fun h => by cases h; rfl⟩
    | ok vb => exact isFalse (fun h => by cases h)
  | ok va =>
    cases b with
    | error eb => exact isFalse (fun h => by cases h)
    | ok vb =>
      exact decidable_of_iff (va = vb) ⟨fun h => by rw [h], fun h => by cases h; rfl⟩

/-- `DirectedGraph::would_create_cycle` entry point: DFS from `to_id`
looking for `from_id` (src/directed_graph.rs lines 171-193). -/
def would_create_cycle (g : DirectedGraph) (from_id to_id : ℕ) : Bool :=
  wccAux g.adjacency_list from_id (wccFuel g.adjacency_list) [to_id] ∅

/-- `DirectedGraph::add_edge` (src/directed_graph.rs lines 72-101). -/
def DirectedGraph.add_edge (g : DirectedGraph) (from_id to_id : ℕ) :
    Except GraphError Unit × DirectedGraph :=
  if ¬ containsKey g.adjacency_list from_id then
    (Except.error (GraphError.nodeNotFound from_id), g)
  else if ¬ containsKey g.adjacency_list to_id then
    (Except.error (GraphError.nodeNotFound to_id), g)
  else if would_create_cycle g from_id to_id then
    (Except.error GraphError.cycleWouldForm, g)
  else if to_id ∈ succList g.adjacency_list from_id then
    (Except.ok (), g)
  else
    (Except.ok (),
      update_cache
        { g with
          adjacency_list := assocUpdate g.adjacency_list from_id (fun ns => ns ++ [to_id]) })

/-- `DirectedGraph::remove_node` (src/directed_graph.rs lines 113-130):
drop the node's own entry, then drop it from every successor list. -/
def DirectedGraph.remove_node (g : DirectedGraph) (node_id : ℕ) : Bool × DirectedGraph :=
  if ¬ containsKey g.adjacency_list node_id then (false, g)
  else
    (true,
      update_cache
        { g with
          adjacency_list :=
            (g.adjacency_list.filter (fun e => e.1 ≠ node_id)).map
              (fun e => (e.1, e.2.filter (fun n => n ≠ node_id))) })

/-- `DirectedGraph::remove_edge` (src/directed_graph.rs lines 143-158):
`retain` removes `to_id` and the caches are rebuilt only when the length
actually shrank, i.e. when `to_id` was present. -/
def DirectedGraph.remove_edge (g : DirectedGraph) (from_id to_id : ℕ) : Bool × DirectedGraph :=
  match assocGet g.adjacency_list from_id with
  | none => (false, g)
  | some neighbors =>
    if to_id ∈ neighbors then
      (true,
        update_cache
          { g with
            adjacency_list :=
              assocUpdate g.adjacency_list from_id (fun ns => ns.filter (fun n => n ≠ to_id)) })
    else (false, g)

/-- `DirectedGraph::get_topological_order` (src/directed_graph.rs lines
282-284), also exposed through `RealTimeSafeDirectedGraph`. -/
def DirectedGraph.get_topological_order (g : DirectedGraph) : List ℕ :=
  g.cached_topo_sort

/-- `DirectedGraph::get_reverse_topological_order` (src/directed_graph.rs
lines 293-295), also exposed through `RealTimeSafeDirectedGraph`. -/
def DirectedGraph.get_reverse_topological_order (g : DirectedGraph) : List ℕ :=
  g.cached_reverse_topo_sort

/-- `DirectedGraph::get_input_node_ids` (src/directed_graph.rs lines
332-338): the cached predecessor list, empty for an unknown node. -/
def DirectedGraph.get_input_node_ids (g : DirectedGraph) (node_id : ℕ) : List ℕ :=
  (assocGet g.cached_input_nodes node_id).getD []

/-! ## Reachable graph states -/

/-- One control-thread topology mutation. -/
inductive GraphOp : Type
  | addNode (id : ℕ)
  | addEdge (u v : ℕ)
  | removeNode (id : ℕ)
  | removeEdge (u v : ℕ)

/-- Apply a mutation, discarding the status it reports. -/
def applyOp (g : DirectedGraph) : GraphOp → DirectedGraph
  | GraphOp.addNode id => (g.add_node id).2
  | GraphOp.addEdge u v => (g.add_edge u v).2
  | GraphOp.removeNode id => (g.remove_node id).2
  | GraphOp.removeEdge u v => (g.remove_edge u v).2

/-- The states reachable from `DirectedGraph::new` by any finite sequence
of topology mutations. -/
def ReachableGraph (g : DirectedGraph) : Prop :=
  ∃ ops : List GraphOp, g = ops.foldl applyOp DirectedGraph.new

/-! ## Edges, reachability, acyclicity -/

/-- The edge relation of an adjacency list: `x → y` iff `y` occurs in the
successor list of `x`. -/
def edgeRel (m : List (ℕ × List ℕ)) (x y : ℕ) : Prop :=
  y ∈ succList m x

/-- `x` reaches `y` over zero or more edges. -/
def Reaches (m : List (ℕ × List ℕ)) : ℕ → ℕ → Prop :=
  Relation.ReflTransGen (edgeRel m)

/-- No node lies on a directed cycle of one or more edges. -/
def Acyclic (m : List (ℕ × List ℕ)) : Prop :=
  ∀ x : ℕ, ¬ Relation.TransGen (edgeRel m) x x

/-! ## Audio buffers (audio_engine_core/src/audio_buffer.rs and
audio_engine_core/src/audio_buffer_utils.rs)

An `AudioBuffer` is a non-owning interleaved view; the embedding works
directly on the flat backing list of samples.  `copy_from_slice` panics
in Rust when the lengths differ, so every theorem below that involves a
copy carries the corresponding length hypothesis. -/

/-- `audio_buffer_utils::clear_buffer` (lines 41-44): fill with `0.0`. -/
def clear_buffer (b : List ℚ) : List ℚ :=
  b.map (fun _ => 0)

/-- `audio_buffer_utils::copy_buffer` (lines 11-15): the destination
becomes the source (`copy_from_slice`; lengths must agree in Rust). -/
def copy_buffer (src _dst : List ℚ) : List ℚ :=
  src

/-- `audio_buffer_utils::add_buffer` (lines 25-33): add each source sample
into the destination at the same flat index; source samples beyond the
destination are dropped, destination samples beyond the source are kept. -/
def add_buffer : List ℚ → List ℚ → List ℚ
  | [], dst => dst
  | _ :: _, [] => []
  | s :: src, d :: dst => (d + s) :: add_buffer src dst

theorem clear_buffer_eq_replicate (b : List ℚ) :
    clear_buffer b = List.replicate b.length 0 := by
  induction b with
  | nil => rfl
  | cons x xs ih =>
    simp only [clear_buffer, List.map_cons, List.length_cons, List.replicate] at ih ⊢
    rw [ih]

theorem add_buffer_length (src dst : List ℚ) :
    (add_buffer src dst).length = dst.length := by
  induction src generalizing dst with
  | nil => rfl
  | cons s src ih =>
    cases dst with
    | nil => rfl
    | cons d dst => simp [add_buffer, ih]

theorem add_buffer_eq_zipWith (src dst : List ℚ) (h : src.length = dst.length) :
    add_buffer src dst = List.zipWith (fun d s => d + s) dst src := by
  induction src generalizing dst with
  | nil => cases dst with | nil => rfl | cons d dst => simp at h
  | cons s src ih =>
    cases dst with
    | nil => simp at h
    | cons d dst =>
      simp only [List.length_cons, Nat.succ_inj] at h
      simp [add_buffer, List.zipWith, ih dst h]

/-! ## AudioGraph (audio_engine_core/src/audio_graph.rs)

A node object is embedded by its `process` response at its current
internal state: the function from the buffer contents it is handed to the
buffer contents it leaves behind.  (For the single block-processing call
the claims quantify over, the internal state transition of the node is
irrelevant; only the samples it reads and writes matter.) -/

/-- A trait object `Box<dyn AudioGraphNode>`, seen through one `process`
call. -/
def AGNode : Type := List ℚ → List ℚ

/-- `struct AudioGraph` (audio_engine_core/src/audio_graph.rs lines
31-48). -/
structure AudioGraphState where
  nodes : List (ℕ × AGNode)
  graph : DirectedGraph
  next_node_id : ℕ
  sample_rate : ℚ
  max_buffer_size : ℕ
  node_outputs : List (ℕ × List ℚ)
  tmp_input_buffer : List ℚ
  num_channels : ℕ

/-- The scratch buffer handed to `nodes[node_id].process` during
`AudioGraph::process` (audio_engine_core/src/audio_graph.rs lines
217-243): clear the temporary input buffer, sum the cached outputs of all
predecessors into it, and, for the designated input node, overwrite it
with a copy of the caller's buffer (which `process` has already zeroed by
this point — `hostBuf` below receives the zeroed buffer). -/
def presentedBuffer (st : AudioGraphState) (hostBuf : List ℚ) (input_node_id : ℕ)
    (outputs : List (ℕ × List ℚ)) (node_id : ℕ) : List ℚ :=
  let input_node_ids := st.graph.get_input_node_ids node_id
  let tmp0 := clear_buffer st.tmp_input_buffer
  let summed := input_node_ids.foldl
    (fun acc input_id =>
      match assocGet outputs input_id with
      | some input_buffer => add_buffer input_buffer acc
      | none => acc)
    tmp0
  if node_id = input_node_id then copy_buffer hostBuf summed else summed

/-- One iteration of the processing loop of `AudioGraph::process`
(audio_engine_core/src/audio_graph.rs lines 215-270): build the scratch
buffer, skip the node if it has no cached output buffer (`continue` after
a debug assert), otherwise run the node's `process` (a missing node is a
debug assert and the scratch passes through unchanged) and copy the
scratch into the node's cached output buffer. -/
def processNodeStep (st : AudioGraphState) (hostBuf : List ℚ) (input_node_id : ℕ)
    (outputs : List (ℕ × List ℚ)) (node_id : ℕ) : List (ℕ × List ℚ) :=
  let tmp := presentedBuffer st hostBuf input_node_id outputs node_id
  match assocGet outputs node_id with
  | none => outputs
  | some _ =>
    let tmp2 :=
      match assocGet st.nodes node_id with
      | some node => node tmp
      | none => tmp
    assocUpdate outputs node_id (fun _ => tmp2)

/-- The cached outputs after the first `k` nodes of the processing order
have been handled inside one `AudioGraph::process` call. -/
def outputsAfter (st : AudioGraphState) (hostBuf : List ℚ) (input_node_id : ℕ)
    (k : ℕ) : List (ℕ × List ℚ) :=
  (st.graph.get_reverse_topological_order.take k).foldl
    (processNodeStep st hostBuf input_node_id) st.node_outputs

/-- `AudioGraph::process` (audio_engine_core/src/audio_graph.rs lines
170-290): zero the caller's buffer, walk the cached reverse topological
order updating the per-node output caches, then copy the designated
output node's cache into the caller's buffer (leaving it zeroed when that
node has no cache, which is the early `return` of the Rust code). -/
def AudioGraph.process (st : AudioGraphState) (buffer : List ℚ)
    (input_node_id output_node_id : ℕ) : AudioGraphState × List ℚ :=
  let buffer1 := clear_buffer buffer
  let processing_order := st.graph.get_reverse_topological_order
  let outputs := processing_order.foldl
    (processNodeStep st buffer1 input_node_id) st.node_outputs
  let st' := { st with node_outputs := outputs }
  match assocGet outputs output_node_id with
  | none => (st', buffer1)
  | some out => (st', copy_buffer out buffer1)

/-! ## SineGenerator (audio_engine_core/src/nodes/sine_generator.rs)

The phase arithmetic (`+`, `-`, `/`, comparison with `1.0`) is embedded
over `ℚ`; the transcendental `(phase * TAU).sin()` is embedded as the
real `Real.sin (2 * π * phase)` of the rational phase. -/

/-- `struct SineGenerator` (lines 4-11). -/
structure SineGenerator where
  frequency : ℚ
  phase : ℚ
  sample_rate : ℚ
deriving DecidableEq

/-- The sample emitted for a given phase: `(self.phase * TAU).sin()`. -/
noncomputable def sineEmit (phase : ℚ) : ℝ :=
  Real.sin (2 * Real.pi * (phase : ℝ))

/-- The phase-update half of `SineGenerator::calculate_sine` (lines
33-41): add `frequency / sample_rate`, then subtract `1.0` once if the
result reached `1.0`. -/
def SineGenerator.advancePhase (s : SineGenerator) : SineGenerator :=
  let phase_delta := s.frequency / s.sample_rate
  let p := s.phase + phase_delta
  { s with phase := if p ≥ 1 then p - 1 else p }

/-- `SineGenerator::calculate_sine` (lines 28-43): emit the sine of the
current phase and advance the phase. -/
noncomputable def SineGenerator.calculate_sine (s : SineGenerator) : ℝ × SineGenerator :=
  (sineEmit s.phase, s.advancePhase)

/-- `SineGenerator::process` (lines 50-61) on a `num_channels × frames`
buffer: frame `i` receives `calculate_sine`'s `i`-th value on every
channel; the returned list is the full interleaved buffer contents (every
sample of the buffer is overwritten). -/
noncomputable def SineGenerator.processFrames (s : SineGenerator) (num_channels : ℕ) :
    ℕ → SineGenerator × List ℝ
  | 0 => (s, [])
  | frames + 1 =>
    let val := sineEmit s.phase
    let s' := s.advancePhase
    let rec_result := s'.processFrames num_channels frames
    (rec_result.1, List.replicate num_channels val ++ rec_result.2)

/-- `SineGenerator::reset` (lines 63-65). -/
def SineGenerator.reset (s : SineGenerator) : SineGenerator :=
  { s with phase := 0 }

/-- The fractional part of a rational: the mathematical
`x mod 1` the spec's phase-update rule refers to. -/
def fractionalPart (x : ℚ) : ℚ :=
  x - ⌊x⌋

/-! ## ImpulseGenerator (audio_engine_core/src/nodes/impulse_generator.rs) -/

/-- `struct ImpulseGenerator` (lines 3-5). -/
structure ImpulseGenerator where
  impulse_pending : Bool
deriving DecidableEq

/-- Write value `v` into the `len` samples of `data` starting at flat
index `start` (one `get_mut_frame` write of a whole frame). -/
def setRange (data : List ℚ) (start len : ℕ) (v : ℚ) : List ℚ :=
  data.mapIdx (fun i x => if start ≤ i ∧ i < start + len then v else x)

/-- `ImpulseGenerator::process` (lines 20-47) on a
`num_channels × frames` buffer backed by `data`: an empty buffer returns
immediately; otherwise frame 0 is filled with `1.0` when the impulse is
pending (and the flag cleared) or `0.0` otherwise, and frames `1..` are
filled with `0.0`. -/
def ImpulseGenerator.process (g : ImpulseGenerator) (num_channels frames : ℕ)
    (data : List ℚ) : ImpulseGenerator × List ℚ :=
  if frames = 0 then (g, data)
  else
    let first := setRange data 0 num_channels (if g.impulse_pending then 1 else 0)
    let rest := (List.range' 1 (frames - 1)).foldl
      (fun d idx => setRange d (idx * num_channels) num_channels 0) first
    ({ impulse_pending := false }, rest)

/-- `ImpulseGenerator::reset` (lines 49-52). -/
def ImpulseGenerator.reset (_g : ImpulseGenerator) : ImpulseGenerator :=
  { impulse_pending := true }

/-! ## TapIn / TapOut (audio_engine_core/src/nodes/tap.rs) -/

/-- `struct SharedRingBuffer` (lines 7-17). -/
structure SharedRingBuffer where
  sample_rate : ℚ
  channels : ℕ
  data : List ℚ
  write_pos : ℕ
deriving DecidableEq

/-- `struct TapIn` without the shared handle (lines 25-30); the shared
ring buffer is passed explicitly where Rust goes through the mutex. -/
structure TapIn where
  max_delay_time_ms : ℚ
deriving DecidableEq

/-- `struct TapOut` without the shared handle (lines 100-105). -/
structure TapOut where
  delay_time_ms : ℚ
deriving DecidableEq

/-- `TapIn::prepare` (lines 52-62): two channels, ring of
`(max_delay_frames + max_num_samples) × channels` zeros, write position
zero.  `((ms / 1000) * sr).ceil() as usize` is `Int.ceil` saturated at
zero, exactly the Rust float-to-usize cast. -/
def TapIn.prepare (t : TapIn) (sample_rate : ℚ) (max_num_samples : ℕ) : SharedRingBuffer :=
  let max_delay_frames := (Int.ceil (t.max_delay_time_ms / 1000 * sample_rate)).toNat
  let total_frames := max_delay_frames + max_num_samples
  { sample_rate := sample_rate
    channels := 2
    data := List.replicate (total_frames * 2) 0
    write_pos := 0 }

/-- The write loop of `TapIn::process` (lines 71-80): store each sample of
the block at the write position and advance it, wrapping at the ring
length (which the loop reads once, before any write — `List.set` keeps
the length unchanged, so reading it at each step is the same). -/
def ringWrite : List ℚ → List ℚ → ℕ → List ℚ × ℕ
  | [], data, wp => (data, wp)
  | s :: rest, data, wp =>
    ringWrite rest (data.set wp s) (if wp + 1 ≥ data.length then 0 else wp + 1)

/-- `TapIn::process` (lines 65-82): write the whole interleaved block into
the shared ring. -/
def TapIn.process (shared : SharedRingBuffer) (buf : List ℚ) : SharedRingBuffer :=
  let wr := ringWrite buf shared.data shared.write_pos
  { shared with data := wr.1, write_pos := wr.2 }

/-- `TapIn::reset` (lines 84-88). -/
def TapIn.reset (shared : SharedRingBuffer) : SharedRingBuffer :=
  { shared with data := List.replicate shared.data.length 0, write_pos := 0 }

/-- The read loop of `TapOut::process` (lines 157-167): read `n`
consecutive ring samples starting at `rp`, wrapping at the ring length. -/
def ringRead (data : List ℚ) : ℕ → ℕ → List ℚ
  | _, 0 => []
  | rp, n + 1 =>
    data.getD rp 0 :: ringRead data (if rp + 1 ≥ data.length then 0 else rp + 1) n

/-- `TapOut::process` (lines 126-168) on a `channels × num_frames` output
buffer: convert the delay time to frames (ceiling), clamp it from below
by the block length, and read one block starting `delay_samples` before
the write position, wrapping. -/
def TapOut.process (t : TapOut) (shared : SharedRingBuffer)
    (channels num_frames : ℕ) : List ℚ :=
  let sample_rate := shared.sample_rate
  let delay_frames := (Int.ceil (t.delay_time_ms / 1000 * sample_rate)).toNat
  let effective_delay_frames := if delay_frames < num_frames then num_frames else delay_frames
  let delay_samples := effective_delay_frames * channels
  let buffer_len := shared.data.length
  let read_pos :=
    if shared.write_pos ≥ delay_samples then shared.write_pos - delay_samples
    else buffer_len + shared.write_pos - delay_samples
  ringRead shared.data read_pos (num_frames * channels)

/-! ## Ring buffer reading lemmas and claim C6 -/

theorem ringRead_formula (data : List ℚ) (rp n : ℕ) (hrp : rp < data.length) :
    ringRead data rp n =
      (List.range n).map (fun k => data.getD ((rp + k) % data.length) 0) := by
  induction n generalizing rp with
  | zero => simp [ringRead]
  | succ n ih =>
    have hlen : 0 < data.length := Nat.pos_of_ne_zero (by omega)
    have hmod : rp % data.length = rp := Nat.mod_eq_of_lt hrp
    have hnext : (if rp + 1 ≥ data.length then 0 else rp + 1) = (rp + 1) % data.length := by
      by_cases h : rp + 1 ≥ data.length
      · have : rp + 1 = data.length := by omega
        rw [if_pos h, this, Nat.mod_self]
      · rw [if_neg h, Nat.mod_eq_of_lt (by omega)]
    have hnextlt : (rp + 1) % data.length < data.length := Nat.mod_lt _ hlen
    rw [ringRead, hnext, ih _ hnextlt]
    rw [List.range_succ_eq_map]
    simp only [List.map_cons, List.map_map]
    congr 1
    · rw [Nat.add_zero, hmod]
    · apply List.map_congr_left
      intro k _
      simp only [Function.comp_apply]
      congr 1
      conv_rhs => rw [show rp + k.succ = rp + 1 + k by omega, ← Nat.mod_add_mod]

/-- C6: `TapOut::process` applies an effective delay of
`max (ceil (delay_time_ms / 1000 * sample_rate)) block_frames` frames and
reads `block_frames * channels` interleaved samples starting
`effective_delay * channels` samples before the write position, modulo
the ring length, wrapping around.  The hypotheses keep the Rust index
arithmetic inside the ring (they hold for every prepared tap whose delay
does not exceed the maximum delay the ring was sized for). -/
theorem C6_tapout_effective_delay (t : TapOut) (shared : SharedRingBuffer)
    (channels num_frames : ℕ)
    (hwp : shared.write_pos < shared.data.length)
    (hds : max (Int.ceil (t.delay_time_ms / 1000 * shared.sample_rate)).toNat num_frames
        * channels ≤ shared.data.length) :
    TapOut.process t shared channels num_frames =
      (List.range (num_frames * channels)).map (fun k =>
        shared.data.getD
          ((shared.data.length + shared.write_pos
              - max (Int.ceil (t.delay_time_ms / 1000 * shared.sample_rate)).toNat num_frames
                  * channels
              + k) % shared.data.length) 0) := by
  have hlen : 0 < shared.data.length := Nat.lt_of_le_of_lt (Nat.zero_le _) hwp
  set D := (Int.ceil (t.delay_time_ms / 1000 * shared.sample_rate)).toNat with hD
  set ds := max D num_frames * channels with hds_def
  have heff : (if D < num_frames then num_frames else D) = max D num_frames := by
    by_cases h : D < num_frames
    · rw [if_pos h, Nat.max_eq_right (Nat.le_of_lt h)]
    · rw [if_neg h, Nat.max_eq_left (Nat.le_of_not_lt h)]
  have hcode_read :
      (if shared.write_pos ≥ ds then shared.write_pos - ds
       else shared.data.length + shared.write_pos - ds)
      = (shared.data.length + shared.write_pos - ds) % shared.data.length := by
    by_cases h : shared.write_pos ≥ ds
    · rw [if_pos h]
      have h1 : shared.data.length + shared.write_pos - ds
          = shared.data.length + (shared.write_pos - ds) := by omega
      rw [h1, Nat.add_mod_left, Nat.mod_eq_of_lt (by omega)]
    · rw [if_neg h]
      have h2 : shared.write_pos < ds := Nat.lt_of_not_le h
      rw [Nat.mod_eq_of_lt (by omega)]
  have hread_lt : (shared.data.length + shared.write_pos - ds) % shared.data.length
      < shared.data.length := Nat.mod_lt _ hlen
  show (let sample_rate := shared.sample_rate;
        let delay_frames := (Int.ceil (t.delay_time_ms / 1000 * sample_rate)).toNat;
        let effective_delay_frames :=
          if delay_frames < num_frames then num_frames else delay_frames;
        let delay_samples := effective_delay_frames * channels;
        let buffer_len := shared.data.length;
        let read_pos :=
          if shared.write_pos ≥ delay_samples then shared.write_pos - delay_samples
          else buffer_len + shared.write_pos - delay_samples;
        ringRead shared.data read_pos (num_frames * channels)) = _
  simp only [← hD, heff, ← hds_def, hcode_read]
  rw [ringRead_formula _ _ _ hread_lt]
  apply List.map_congr_left
  intro k _
  congr 1
  rw [Nat.mod_add_mod]

/-! ## Sine generator phase dynamics (claim C7) -/

theorem SineGenerator.advancePhase_frequency (s : SineGenerator) :
    s.advancePhase.frequency = s.frequency := by
  unfold SineGenerator.advancePhase
  by_cases h : s.phase + s.frequency / s.sample_rate ≥ 1 <;> simp [h]

theorem SineGenerator.advancePhase_sample_rate (s : SineGenerator) :
    s.advancePhase.sample_rate = s.sample_rate := by
  unfold SineGenerator.advancePhase
  by_cases h : s.phase + s.frequency / s.sample_rate ≥ 1 <;> simp [h]

theorem fractionalPart_eq_self (x : ℚ) (h0 : 0 ≤ x) (h1 : x < 1) :
    fractionalPart x = x := by
  unfold fractionalPart
  have : ⌊x⌋ = 0 := by
    rw [Int.floor_eq_iff]
    constructor
    · exact_mod_cast h0
    · push_cast
      linarith
  rw [this]
  simp

theorem fractionalPart_eq_sub_one (x : ℚ) (h0 : 1 ≤ x) (h1 : x < 2) :
    fractionalPart x = x - 1 := by
  unfold fractionalPart
  have : ⌊x⌋ = 1 := by
    rw [Int.floor_eq_iff]
    constructor
    · exact_mod_cast h0
    · push_cast
      linarith
  rw [this]
  norm_num

theorem SineGenerator.advancePhase_eq_fract (s : SineGenerator)
    (h0 : 0 ≤ s.phase) (h1 : s.phase < 1)
    (hd0 : 0 ≤ s.frequency / s.sample_rate) (hd1 : s.frequency / s.sample_rate ≤ 1) :
    s.advancePhase.phase = fractionalPart (s.phase + s.frequency / s.sample_rate) := by
  unfold SineGenerator.advancePhase
  by_cases h : s.phase + s.frequency / s.sample_rate ≥ 1
  · simp only [if_pos h]
    rw [fractionalPart_eq_sub_one _ h (by linarith)]
  · simp only [if_neg h]
    rw [fractionalPart_eq_self _ (by linarith) (by linarith)]

theorem SineGenerator.advancePhase_mem_Ico (s : SineGenerator)
    (h0 : 0 ≤ s.phase) (h1 : s.phase < 1)
    (hd0 : 0 ≤ s.frequency / s.sample_rate) (hd1 : s.frequency / s.sample_rate ≤ 1) :
    0 ≤ s.advancePhase.phase ∧ s.advancePhase.phase < 1 := by
  unfold SineGenerator.advancePhase
  by_cases h : s.phase + s.frequency / s.sample_rate ≥ 1
  · simp only [if_pos h]
    constructor <;> [linarith; linarith]
  · simp only [if_neg h]
    constructor <;> [linarith; linarith]

theorem SineGenerator.iterate_advancePhase_invariant (s : SineGenerator) (k : ℕ)
    (h0 : 0 ≤ s.phase) (h1 : s.phase < 1)
    (hd0 : 0 ≤ s.frequency / s.sample_rate) (hd1 : s.frequency / s.sample_rate ≤ 1) :
    (0 ≤ (SineGenerator.advancePhase^[k] s).phase
      ∧ (SineGenerator.advancePhase^[k] s).phase < 1)
    ∧ (SineGenerator.advancePhase^[k] s).frequency = s.frequency
    ∧ (SineGenerator.advancePhase^[k] s).sample_rate = s.sample_rate := by
  induction k with
  | zero => exact ⟨⟨h0, h1⟩, rfl, rfl⟩
  | succ k ih =>
    obtain ⟨⟨hk0, hk1⟩, hkf, hks⟩ := ih
    have hdelta : (SineGenerator.advancePhase^[k] s).frequency
        / (SineGenerator.advancePhase^[k] s).sample_rate = s.frequency / s.sample_rate := by
      rw [hkf, hks]
    rw [Function.iterate_succ_apply']
    refine ⟨?_, ?_, ?_⟩
    · exact SineGenerator.advancePhase_mem_Ico _ hk0 hk1 (hdelta ▸ hd0) (hdelta ▸ hd1)
    · rw [SineGenerator.advancePhase_frequency, hkf]
    · rw [SineGenerator.advancePhase_sample_rate, hks]

theorem SineGenerator.processFrames_eq (s : SineGenerator) (num_channels : ℕ) (k : ℕ) :
    SineGenerator.processFrames s num_channels k
      = (SineGenerator.advancePhase^[k] s,
        (List.range k).flatMap
          (fun i =>
            List.replicate num_channels (sineEmit ((SineGenerator.advancePhase^[i] s).phase)))) := by
  induction k generalizing s with
  | zero => simp [SineGenerator.processFrames]
  | succ k ih =>
    rw [SineGenerator.processFrames, ih (s.advancePhase)]
    rw [List.range_succ_eq_map]
    simp only [List.flatMap_cons, Function.iterate_zero_apply, List.flatMap_map,
      Function.iterate_succ_apply, Function.comp]

/-- C7 (corrected): during `SineGenerator::process` each frame emits
`sin(2π·phase)` replicated to every channel, and — provided the per-frame
increment `frequency / sample_rate` lies in `[0, 1]` and the phase starts
in `[0, 1)` — each phase step equals `(phase + frequency/sample_rate) mod 1`
and the stored phase stays in `[0, 1)` after every process call.  (Without
the increment bound the code's single conditional subtraction of `1.0`
is not a `mod` and the phase escapes `[0, 1)`; see the counterexample.) -/
theorem C7_phase_dynamics_amended (s : SineGenerator) (num_channels frames : ℕ)
    (h0 : 0 ≤ s.phase) (h1 : s.phase < 1)
    (hd0 : 0 ≤ s.frequency / s.sample_rate) (hd1 : s.frequency / s.sample_rate ≤ 1) :
    (SineGenerator.processFrames s num_channels frames).2
        = (List.range frames).flatMap
            (fun i =>
              List.replicate num_channels (sineEmit ((SineGenerator.advancePhase^[i] s).phase)))
      ∧ (∀ i : ℕ, (SineGenerator.advancePhase^[i + 1] s).phase
          = fractionalPart
              ((SineGenerator.advancePhase^[i] s).phase + s.frequency / s.sample_rate))
      ∧ 0 ≤ (SineGenerator.processFrames s num_channels frames).1.phase
      ∧ (SineGenerator.processFrames s num_channels frames).1.phase < 1 := by
  have hiter := fun k => SineGenerator.iterate_advancePhase_invariant s k h0 h1 hd0 hd1
  refine ⟨?_, ?_, ?_, ?_⟩
  · rw [SineGenerator.processFrames_eq]
  · intro i
    obtain ⟨⟨hi0, hi1⟩, hif, his⟩ := hiter i
    have hdelta : (SineGenerator.advancePhase^[i] s).frequency
        / (SineGenerator.advancePhase^[i] s).sample_rate = s.frequency / s.sample_rate := by
      rw [hif, his]
    rw [Function.iterate_succ_apply',
      SineGenerator.advancePhase_eq_fract _ hi0 hi1 (hdelta ▸ hd0) (hdelta ▸ hd1), hdelta]
  · rw [SineGenerator.processFrames_eq]
    exact (hiter frames).1.1
  · rw [SineGenerator.processFrames_eq]
    exact (hiter frames).1.2

/-- C7 witness: a concrete sine generator (frequency 1/2, sample rate 1,
phase 0) run for two frames on one channel satisfies the hypotheses and
the conclusion of the amended theorem. -/
theorem C7_witness :
    (0 ≤ (0 : ℚ) ∧ (0 : ℚ) < 1
      ∧ 0 ≤ (⟨1 / 2, 0, 1⟩ : SineGenerator).frequency / (⟨1 / 2, 0, 1⟩ : SineGenerator).sample_rate
      ∧ (⟨1 / 2, 0, 1⟩ : SineGenerator).frequency / (⟨1 / 2, 0, 1⟩ : SineGenerator).sample_rate ≤ 1)
    ∧ (0 ≤ (SineGenerator.processFrames ⟨1 / 2, 0, 1⟩ 1 2).1.phase
        ∧ (SineGenerator.processFrames ⟨1 / 2, 0, 1⟩ 1 2).1.phase < 1) := by
  have h := C7_phase_dynamics_amended ⟨1 / 2, 0, 1⟩ 1 2 (by norm_num) (by norm_num)
    (by norm_num) (by norm_num)
  exact ⟨⟨by norm_num, by norm_num, by norm_num, by norm_num⟩, h.2.2.1, h.2.2.2⟩

/-- C7 counterexample: with frequency 2001 and prepared sample rate 1000
(increment 2.001), one `process` call on a one-frame buffer leaves the
stored phase at 1.001, which is outside `[0, 1)` and differs from
`(0 + 2001/1000) mod 1 = 0.001`: the claim is false as stated. -/
theorem C7_counterexample_phase_exceeds_one :
    (SineGenerator.processFrames ⟨2001, 0, 1000⟩ 1 1).1.phase = 1001 / 1000
    ∧ ¬ ((SineGenerator.processFrames ⟨2001, 0, 1000⟩ 1 1).1.phase < 1)
    ∧ (SineGenerator.processFrames ⟨2001, 0, 1000⟩ 1 1).1.phase
        ≠ fractionalPart ((0 : ℚ) + 2001 / 1000) := by
  have hphase : (SineGenerator.processFrames ⟨2001, 0, 1000⟩ 1 1).1.phase = 1001 / 1000 := by
    rw [SineGenerator.processFrames_eq]
    show (SineGenerator.advancePhase^[1] ⟨2001, 0, 1000⟩).phase = 1001 / 1000
    rw [Function.iterate_one]
    unfold SineGenerator.advancePhase
    norm_num
  have hfract : fractionalPart ((0 : ℚ) + 2001 / 1000) = 1 / 1000 := by
    unfold fractionalPart
    have : ⌊(0 : ℚ) + 2001 / 1000⌋ = 2 := by
      rw [Int.floor_eq_iff]
      constructor
      · norm_num
      · norm_num
    rw [this]
    norm_num
  refine ⟨hphase, ?_, ?_⟩
  · rw [hphase]
    norm_num
  · rw [hphase, hfract]
    norm_num

/-! ## Impulse generator lemmas (claims C8 and C10) -/

theorem setRange_length (data : List ℚ) (s l : ℕ) (v : ℚ) :
    (setRange data s l v).length = data.length := by
  unfold setRange
  exact List.length_mapIdx

theorem setRange_get? (data : List ℚ) (s l : ℕ) (v : ℚ) (i : ℕ) :
    (setRange data s l v).get? i
      = (data.get? i).map (fun x => if s ≤ i ∧ i < s + l then v else x) := by
  by_cases hi : i < data.length
  · have hi' : i < (setRange data s l v).length := by rw [setRange_length]; exact hi
    rw [List.get?_eq_get hi, List.get?_eq_get hi']
    unfold setRange
    rw [List.get_mapIdx _ _ _ hi]
    rfl
  · have h1 : data.get? i = none := List.get?_eq_none.mpr (Nat.le_of_not_lt hi)
    have h2 : (setRange data s l v).get? i = none := by
      apply List.get?_eq_none.mpr
      rw [setRange_length]
      exact Nat.le_of_not_lt hi
    rw [h1, h2]
    rfl

theorem foldSetRange_get? (idxs : List ℕ) (ch : ℕ) (data : List ℚ) (i : ℕ) :
    ((idxs.foldl (fun d idx => setRange d (idx * ch) ch 0) data)).get? i
      = (data.get? i).map
          (fun x => if ∃ idx ∈ idxs, idx * ch ≤ i ∧ i < idx * ch + ch then 0 else x) := by
  induction idxs generalizing data with
  | nil =>
    simp only [List.foldl_nil, List.not_mem_nil, false_and, exists_false, if_false]
    cases data.get? i <;> rfl
  | cons idx idxs ih =>
    rw [List.foldl_cons, ih, setRange_get?, Option.map_map]
    cases hgi : data.get? i with
    | none => rfl
    | some x =>
      simp only [Option.map_some']
      congr 1
      simp only [Function.comp_apply]
      by_cases hidxs : ∃ j ∈ idxs, j * ch ≤ i ∧ i < j * ch + ch
      · rw [if_pos hidxs, if_pos ?side]
        case side =>
          obtain ⟨j, hj, hji⟩ := hidxs
          exact ⟨j, List.mem_cons_of_mem _ hj, hji⟩
      · rw [if_neg hidxs]
        by_cases hhead : idx * ch ≤ i ∧ i < idx * ch + ch
        · rw [if_pos hhead, if_pos ⟨idx, List.mem_cons_self _ _, hhead⟩]
        · rw [if_neg hhead, if_neg ?nside]
          case nside =>
            rintro ⟨j, hj, hji⟩
            rcases List.mem_cons.mp hj with rfl | hj2
            · exact hhead hji
            · exact hidxs ⟨j, hj2, hji⟩

theorem foldSetRange_length (idxs : List ℕ) (ch : ℕ) (data : List ℚ) :
    ((idxs.foldl (fun d idx => setRange d (idx * ch) ch 0) data)).length = data.length := by
  induction idxs generalizing data with
  | nil => rfl
  | cons idx idxs ih => rw [List.foldl_cons, ih, setRange_length]

theorem middle_frame_cover (ch frames i : ℕ) :
    (∃ idx ∈ List.range' 1 (frames - 1), idx * ch ≤ i ∧ i < idx * ch + ch)
      ↔ (ch ≤ i ∧ i < frames * ch) := by
  constructor
  · rintro ⟨idx, hmem, hlo, hhi⟩
    rw [List.mem_range'_1] at hmem
    obtain ⟨h1, h2⟩ := hmem
    have hidx : idx < frames := by omega
    constructor
    · calc ch = 1 * ch := (Nat.one_mul ch).symm
        _ ≤ idx * ch := Nat.mul_le_mul_right ch h1
        _ ≤ i := hlo
    · calc i < idx * ch + ch := hhi
        _ = (idx + 1) * ch := (Nat.succ_mul idx ch).symm
        _ ≤ frames * ch := Nat.mul_le_mul_right ch hidx
  · rintro ⟨hlo, hhi⟩
    induction frames with
    | zero => simp at hhi
    | succ f ihf =>
      by_cases hless : i < f * ch
      · obtain ⟨idx, hmem, hcond⟩ := ihf hless
        rw [List.mem_range'_1] at hmem
        refine ⟨idx, ?_, hcond⟩
        rw [List.mem_range'_1]
        omega
      · have hf1 : 1 ≤ f := by
          rcases Nat.eq_zero_or_pos f with rfl | hf
          · rw [Nat.zero_mul] at hless
            rw [Nat.one_mul] at hhi
            omega
          · exact hf
        refine ⟨f, ?_, ?_, ?_⟩
        · rw [List.mem_range'_1]
          omega
        · omega
        · have : (f + 1) * ch = f * ch + ch := Nat.succ_mul f ch
          omega

theorem impulse_process_eq (b : Bool) (ch frames : ℕ) (data : List ℚ)
    (hf : 1 ≤ frames) (hlen : data.length = ch * frames) :
    ImpulseGenerator.process ⟨b⟩ ch frames data
      = (⟨false⟩,
          List.replicate ch (if b then (1 : ℚ) else 0)
            ++ List.replicate ((frames - 1) * ch) 0) := by
  have hmul : frames * ch = (frames - 1) * ch + ch := by
    conv_lhs => rw [show frames = (frames - 1) + 1 by omega]
    rw [Nat.succ_mul]
  have hcomm : ch * frames = frames * ch := Nat.mul_comm ch frames
  unfold ImpulseGenerator.process
  rw [if_neg (by omega)]
  refine Prod.ext rfl ?_
  show (List.range' 1 (frames - 1)).foldl
      (fun d idx => setRange d (idx * ch) ch 0)
      (setRange data 0 ch (if (⟨b⟩ : ImpulseGenerator).impulse_pending then 1 else 0)) = _
  apply List.ext_get?
  intro i
  rw [foldSetRange_get?, setRange_get?]
  show _ = (List.replicate ch (if b then (1 : ℚ) else 0)
      ++ List.replicate ((frames - 1) * ch) 0).get? i
  have hrlen : (List.replicate ch (if b then (1 : ℚ) else 0)
      ++ List.replicate ((frames - 1) * ch) 0).length = ch * frames := by
    simp only [List.length_append, List.length_replicate]
    omega
  by_cases hi : i < data.length
  · rw [List.get?_eq_get hi]
    simp only [Option.map_some']
    simp only [middle_frame_cover]
    have hrhs : (List.replicate ch (if b then (1 : ℚ) else 0)
        ++ List.replicate ((frames - 1) * ch) 0).get? i
        = if i < ch then some (if b then (1 : ℚ) else 0)
          else if i < ch * frames then some 0 else none := by
      by_cases h1 : i < ch
      · rw [if_pos h1, List.get?_append (by simpa using h1)]
        rw [List.get?_eq_get (by simpa using h1)]
        simp
      · rw [if_neg h1, List.get?_append_right (by simpa using Nat.le_of_not_lt h1)]
        by_cases h2 : i < ch * frames
        · rw [if_pos h2]
          have hilt : i - (List.replicate ch (if b then (1 : ℚ) else 0)).length
              < (frames - 1) * ch := by
            simp only [List.length_replicate]
            omega
          rw [List.get?_eq_get (by simpa using hilt)]
          simp
        · rw [if_neg h2]
          apply List.get?_eq_none.mpr
          simp only [List.length_append, List.length_replicate]
          omega
    rw [hrhs]
    by_cases h1 : i < ch
    · rw [if_neg (show ¬ (ch ≤ i ∧ i < frames * ch) by omega),
        if_pos (show 0 ≤ i ∧ i < 0 + ch from ⟨Nat.zero_le i, by omega⟩), if_pos h1]
    · by_cases h2 : i < ch * frames
      · rw [if_pos (show ch ≤ i ∧ i < frames * ch from ⟨Nat.le_of_not_lt h1, by omega⟩),
          if_neg h1, if_pos h2]
      · omega
  · rw [List.get?_eq_none.mpr (Nat.le_of_not_lt hi)]
    simp only [Option.map_none']
    symm
    apply List.get?_eq_none.mpr
    omega

/-- C8: the first `process` after construction or `reset` (pending flag
set) writes 1.0 to every channel of frame 0 and 0.0 to every sample of
every later frame and clears the pending flag; every later `process`
(pending flag cleared) writes 0.0 everywhere; `reset` sets the flag back.
The buffers carry the `channels × frames` backing length of an
`AudioBuffer`. -/
theorem C8_impulse_behavior (g : ImpulseGenerator) (ch frames : ℕ)
    (data data2 : List ℚ) (hf : 1 ≤ frames)
    (hlen : data.length = ch * frames) (hlen2 : data2.length = ch * frames) :
    ImpulseGenerator.process ⟨true⟩ ch frames data
        = (⟨false⟩, List.replicate ch 1 ++ List.replicate ((frames - 1) * ch) 0)
      ∧ ImpulseGenerator.process ⟨false⟩ ch frames data2
        = (⟨false⟩, List.replicate (ch * frames) 0)
      ∧ ImpulseGenerator.reset g = ⟨true⟩ := by
  refine ⟨?_, ?_, rfl⟩
  · have h := impulse_process_eq true ch frames data hf hlen
    simpa using h
  · have h := impulse_process_eq false ch frames data2 hf hlen2
    simp only [if_neg (by simp : ¬ (false = true))] at h
    rw [h]
    have hrep : List.replicate (ch * frames) (0 : ℚ)
        = List.replicate ch 0 ++ List.replicate ((frames - 1) * ch) 0 := by
      rw [← List.replicate_add]
      congr 1
      have h1 : frames * ch = (frames - 1) * ch + ch := by
        conv_lhs => rw [show frames = (frames - 1) + 1 by omega]
        rw [Nat.succ_mul]
      have h2 : ch * frames = frames * ch := Nat.mul_comm ch frames
      omega
    rw [hrep]

/-- C8 witness: the stereo four-frame instance. -/
theorem C8_witness :
    (1 ≤ 4 ∧ (List.replicate 8 (5 : ℚ)).length = 2 * 4)
      ∧ ImpulseGenerator.process ⟨true⟩ 2 4 (List.replicate 8 (5 : ℚ))
          = (⟨false⟩, List.replicate 2 1 ++ List.replicate (3 * 2) 0)
      ∧ ImpulseGenerator.process ⟨false⟩ 2 4 (List.replicate 8 (5 : ℚ))
          = (⟨false⟩, List.replicate (2 * 4) 0)
      ∧ ImpulseGenerator.reset ⟨false⟩ = ⟨true⟩ := by
  have h := C8_impulse_behavior ⟨false⟩ 2 4 (List.replicate 8 5) (List.replicate 8 5)
    (by decide) (by decide) (by decide)
  exact ⟨⟨by decide, by decide⟩, h.1, h.2.1, h.2.2⟩

/-- C10: `ImpulseGenerator::process` on a zero-frame buffer returns
immediately, leaving both the buffer contents and the pending flag
unchanged; in particular the pending impulse survives and is still
emitted at frame 0 of the next process call on a non-empty buffer. -/
theorem C10_zero_frame_process (g : ImpulseGenerator) (ch : ℕ) (data : List ℚ)
    (ch2 frames2 : ℕ) (data2 : List ℚ)
    (hf2 : 1 ≤ frames2) (hlen2 : data2.length = ch2 * frames2) :
    ImpulseGenerator.process g ch 0 data = (g, data)
      ∧ ((ImpulseGenerator.process ⟨true⟩ ch 0 data).1.process ch2 frames2 data2).2
          = List.replicate ch2 1 ++ List.replicate ((frames2 - 1) * ch2) 0 := by
  have hzero : ∀ g' : ImpulseGenerator, ImpulseGenerator.process g' ch 0 data = (g', data) := by
    intro g'
    unfold ImpulseGenerator.process
    rw [if_pos rfl]
  refine ⟨hzero g, ?_⟩
  rw [hzero ⟨true⟩]
  have h := impulse_process_eq true ch2 frames2 data2 hf2 hlen2
  show (ImpulseGenerator.process ⟨true⟩ ch2 frames2 data2).2 = _
  rw [h]
  simp

/-- C10 witness: a zero-frame call with pending impulse, followed by a
stereo four-frame call that still emits the impulse at frame 0. -/
theorem C10_witness :
    (1 ≤ 4 ∧ (List.replicate 8 (5 : ℚ)).length = 2 * 4)
      ∧ ImpulseGenerator.process ⟨true⟩ 2 0 [9, 9] = (⟨true⟩, [9, 9])
      ∧ ((ImpulseGenerator.process ⟨true⟩ 2 0 ([9, 9] : List ℚ)).1.process 2 4
            (List.replicate 8 (5 : ℚ))).2
          = List.replicate 2 1 ++ List.replicate (3 * 2) 0 := by
  have h := C10_zero_frame_process ⟨true⟩ 2 [9, 9] 2 4 (List.replicate 8 5)
    (by decide) (by decide)
  exact ⟨⟨by decide, by decide⟩, h.1, h.2⟩

/-! ## Claim C1: what the designated input node actually receives -/

/-- C1 (corrected): `AudioGraph::process` zeroes the caller's buffer in
its first step, so when the walk reaches the designated input node the
"copy the caller's buffer into scratch" step copies that already-zeroed
buffer: the input node's `process` receives an all-zero buffer of the
caller's length (not the host samples as they stood at the moment
`process` was invoked, which are lost), and what is stored as that
node's output is the node's response to that zero buffer. -/
theorem C1_input_node_gets_zeroed_buffer (st : AudioGraphState) (buffer : List ℚ)
    (input_node_id : ℕ) (outputs : List (ℕ × List ℚ)) (f : AGNode) (b0 : List ℚ)
    (hf : assocGet st.nodes input_node_id = some f)
    (hslot : assocGet outputs input_node_id = some b0) :
    presentedBuffer st (clear_buffer buffer) input_node_id outputs input_node_id
        = List.replicate buffer.length 0
      ∧ processNodeStep st (clear_buffer buffer) input_node_id outputs input_node_id
        = assocUpdate outputs input_node_id
            (fun _ => f (List.replicate buffer.length 0)) := by
  have hpres : presentedBuffer st (clear_buffer buffer) input_node_id outputs input_node_id
      = List.replicate buffer.length 0 := by
    unfold presentedBuffer
    rw [if_pos rfl]
    unfold copy_buffer
    exact clear_buffer_eq_replicate buffer
  refine ⟨hpres, ?_⟩
  unfold processNodeStep
  rw [hpres, hslot, hf]

/-- One identity node (the behavior of the marker `InputNode`, whose
`process` does nothing). -/
def C1_node : AGNode := fun b => b

/-- A graph holding the single node `0`. -/
def C1_graph : DirectedGraph := (DirectedGraph.new.add_node 0).2

/-- A prepared engine state around `C1_graph`: stereo, one frame, node 0
acting as both input and output marker. -/
def C1_state : AudioGraphState :=
  { nodes := [(0, C1_node)]
    graph := C1_graph
    next_node_id := 1
    sample_rate := 44100
    max_buffer_size := 1
    node_outputs := [(0, [0, 0])]
    tmp_input_buffer := [0, 0]
    num_channels := 2 }

/-- C1 counterexample: processing the host buffer `[1, 2]` through the
identity input node stores `[0, 0]` — not the host samples `[1, 2]` — as
the input node's output, and the walk's scratch buffer for the input node
is `[0, 0]`: the claim as stated is false. -/
theorem C1_counterexample_host_input_discarded :
    assocGet (AudioGraph.process C1_state [1, 2] 0 0).1.node_outputs 0 = some [0, 0]
      ∧ presentedBuffer C1_state (clear_buffer [1, 2]) 0 C1_state.node_outputs 0 = [0, 0]
      ∧ ([0, 0] : List ℚ) ≠ [1, 2]
      ∧ (AudioGraph.process C1_state [1, 2] 0 0).2 = [0, 0] := by
  refine ⟨by decide, by decide, by decide, by decide⟩

/-- C1 witness: the amended theorem applied to the concrete engine state
of the counterexample. -/
theorem C1_witness :
    assocGet C1_state.nodes 0 = some C1_node
      ∧ assocGet C1_state.node_outputs 0 = some [0, 0]
      ∧ presentedBuffer C1_state (clear_buffer [1, 2]) 0 C1_state.node_outputs 0
          = List.replicate (List.length [(1 : ℚ), 2]) 0
      ∧ processNodeStep C1_state (clear_buffer [1, 2]) 0 C1_state.node_outputs 0
        = assocUpdate C1_state.node_outputs 0
            (fun _ => C1_node (List.replicate (List.length [(1 : ℚ), 2]) 0)) := by
  have h := C1_input_node_gets_zeroed_buffer C1_state [1, 2] 0 C1_state.node_outputs
    C1_node [0, 0] (by rfl) (by rfl)
  exact ⟨rfl, rfl, h.1, h.2⟩

/-! ## Ring writing lemmas and the C6 scenario -/

theorem ringWrite_length (buf : List ℚ) : ∀ (data : List ℚ) (wp : ℕ),
    (ringWrite buf data wp).1.length = data.length := by
  induction buf with
  | nil => intro data wp; rfl
  | cons s rest ih =>
    intro data wp
    rw [ringWrite]
    rw [ih]
    exact List.length_set data wp s ▸ rfl

theorem ringWrite_no_wrap (buf : List ℚ) : ∀ (data : List ℚ) (wp : ℕ),
    wp + buf.length < data.length →
    (ringWrite buf data wp).2 = wp + buf.length
      ∧ ∀ i, (ringWrite buf data wp).1.get? i
          = if wp ≤ i ∧ i < wp + buf.length then buf.get? (i - wp) else data.get? i := by
  induction buf with
  | nil =>
    intro data wp h
    refine ⟨rfl, fun i => ?_⟩
    rw [if_neg (by simp only [List.length_nil]; omega)]
    rfl
  | cons s rest ih =>
    intro data wp h
    have hwp1 : wp + 1 < data.length := by
      simp only [List.length_cons] at h
      omega
    have hcond : ¬ (wp + 1 ≥ data.length) := by omega
    rw [ringWrite, if_neg hcond]
    have hlen : (data.set wp s).length = data.length := List.length_set data wp s
    have ihh := ih (data.set wp s) (wp + 1) (by
      simp only [List.length_cons] at h
      omega)
    obtain ⟨ih2, ih1⟩ := ihh
    constructor
    · rw [ih2]
      simp only [List.length_cons]
      omega
    · intro i
      rw [ih1 i]
      by_cases h1 : wp + 1 ≤ i ∧ i < wp + 1 + rest.length
      · rw [if_pos h1, if_pos (by simp only [List.length_cons]; omega)]
        have : i - wp = (i - (wp + 1)) + 1 := by omega
        rw [this]
        rfl
      · rw [if_neg h1]
        by_cases h2 : i = wp
        · subst h2
          rw [if_pos (by simp only [List.length_cons]; omega)]
          rw [List.get?_eq_getElem?, List.getElem?_set_self (by omega), Nat.sub_self]
          rfl
        · rw [if_neg (by simp only [List.length_cons]; omega)]
          rw [List.get?_eq_getElem?, List.getElem?_set_ne (fun hw => h2 hw.symm),
            ← List.get?_eq_getElem?]

/-- The ring of the C6 scenario: a `TapIn` with the default 1000 ms
maximum delay prepared at 1000 Hz for 4-frame blocks, after writing one
stereo block of the frames (1,2), (3,4), (5,6), (7,8). -/
def C6_ring : SharedRingBuffer :=
  TapIn.process (TapIn.prepare ⟨1000⟩ 1000 4) [1, 2, 3, 4, 5, 6, 7, 8]

/-- C6 witness: with `delay_time_ms = 0`, sample rate 1000 and block 4
the effective delay clamps to one block, and the `TapOut` block read
immediately after that one `TapIn` block is exactly the written
sequence. -/
theorem C6_witness :
    C6_ring.write_pos < C6_ring.data.length
      ∧ max (Int.ceil (((⟨0⟩ : TapOut).delay_time_ms) / 1000 * C6_ring.sample_rate)).toNat 4 * 2
          ≤ C6_ring.data.length
      ∧ TapOut.process ⟨0⟩ C6_ring 2 4 = [1, 2, 3, 4, 5, 6, 7, 8] := by
  have hbase : TapIn.prepare ⟨1000⟩ 1000 4
      = { sample_rate := 1000, channels := 2,
          data := List.replicate 2008 0, write_pos := 0 } := by
    unfold TapIn.prepare
    norm_num
    decide
  have hC6 : C6_ring
      = { sample_rate := 1000, channels := 2,
          data := (ringWrite [1, 2, 3, 4, 5, 6, 7, 8] (List.replicate 2008 0) 0).1,
          write_pos := (ringWrite [1, 2, 3, 4, 5, 6, 7, 8] (List.replicate 2008 0) 0).2 } := by
    unfold C6_ring TapIn.process
    rw [hbase]
  have hnw := ringWrite_no_wrap [1, 2, 3, 4, 5, 6, 7, 8] (List.replicate 2008 0) 0
    (by simp only [List.length_replicate, List.length_cons, List.length_nil]; omega)
  have hwp : C6_ring.write_pos = 8 := by
    rw [hC6]
    simp only [hnw.1, List.length_cons, List.length_nil]
  have hlen : C6_ring.data.length = 2008 := by
    rw [hC6]
    simp only [ringWrite_length, List.length_replicate]
  have hsr : C6_ring.sample_rate = 1000 := by rw [hC6]
  have hget : ∀ i, C6_ring.data.get? i
      = if 0 ≤ i ∧ i < 0 + List.length [(1 : ℚ), 2, 3, 4, 5, 6, 7, 8]
        then List.get? [1, 2, 3, 4, 5, 6, 7, 8] (i - 0)
        else (List.replicate 2008 (0 : ℚ)).get? i := by
    intro i
    have hdata : C6_ring.data = (ringWrite [1, 2, 3, 4, 5, 6, 7, 8] (List.replicate 2008 0) 0).1 := by
      rw [hC6]
    rw [hdata]
    exact hnw.2 i
  have hceil0 : (Int.ceil (((⟨0⟩ : TapOut).delay_time_ms) / 1000 * C6_ring.sample_rate)).toNat
      = 0 := by
    rw [hsr]
    show (Int.ceil ((0 : ℚ) / 1000 * 1000)).toNat = 0
    norm_num
  have hds8 : max (Int.ceil (((⟨0⟩ : TapOut).delay_time_ms) / 1000
      * C6_ring.sample_rate)).toNat 4 * 2 = 8 := by
    rw [hceil0]
    rfl
  have hwplt : C6_ring.write_pos < C6_ring.data.length := by
    rw [hwp, hlen]
    norm_num
  have hdsle : max (Int.ceil (((⟨0⟩ : TapOut).delay_time_ms) / 1000
      * C6_ring.sample_rate)).toNat 4 * 2 ≤ C6_ring.data.length := by
    rw [hds8, hlen]
    norm_num
  refine ⟨hwplt, hdsle, ?_⟩
  rw [C6_tapout_effective_delay ⟨0⟩ C6_ring 2 4 hwplt hdsle]
  rw [hds8, hwp, hlen]
  have hvals : ∀ k, k < 8
      → C6_ring.data.getD ((2008 + 8 - 8 + k) % 2008) (0 : ℚ)
        = List.getD [1, 2, 3, 4, 5, 6, 7, 8] k 0 := by
    intro k hk
    have hidx : (2008 + 8 - 8 + k) % 2008 = k := by omega
    rw [hidx]
    have hg := hget k
    rw [if_pos (by simp; omega)] at hg
    rw [List.getD_eq_getElem?_getD, ← List.get?_eq_getElem?, hg, Nat.sub_zero,
      List.getD_eq_getElem?_getD, ← List.get?_eq_getElem?]
  have hrange : List.range (4 * 2) = [0, 1, 2, 3, 4, 5, 6, 7] := rfl
  rw [hrange]
  simp only [List.map_cons, List.map_nil]
  rw [hvals 0 (by norm_num), hvals 1 (by norm_num), hvals 2 (by norm_num),
    hvals 3 (by norm_num), hvals 4 (by norm_num), hvals 5 (by norm_num),
    hvals 6 (by norm_num), hvals 7 (by norm_num)]
  rfl

/-! ## Soundness of the cycle search (claims C2, C3, C4) -/

theorem reach_closed_set (m : List (ℕ × List ℕ)) (S : Finset ℕ)
    (hS : ∀ x ∈ S, ∀ y ∈ succList m x, y ∈ S) (t : ℕ) (ht : t ∉ S) :
    ∀ z ∈ S, ¬ Reaches m z t := by
  intro z hz hreach
  unfold Reaches at hreach
  induction hreach using Relation.ReflTransGen.head_induction_on with
  | refl => exact ht hz
  | head hab _ ih => exact ih (hS _ hz _ hab)

theorem wccAux_false_sound (m : List (ℕ × List ℕ)) (from_id : ℕ) :
    ∀ (fuel : ℕ) (stack : List ℕ) (visited : Finset ℕ),
    stack.length + ((graphUniv m \ visited).sum fun x => (succList m x).length) < fuel →
    wccAux m from_id fuel stack visited = false →
    (∀ x ∈ visited, ∀ y ∈ succList m x, y ∈ visited ∨ y ∈ stack) →
    from_id ∉ visited →
    ∀ z, (z ∈ stack ∨ z ∈ visited) → ¬ Reaches m z from_id := by
  intro fuel
  induction fuel with
  | zero => intro stack visited hfuel; omega
  | succ fuel ih =>
    intro stack visited hfuel hres hclo hfrom z hz
    cases stack with
    | nil =>
      rcases hz with hz | hz
      · simp at hz
      · refine reach_closed_set m visited ?_ from_id hfrom z hz
        intro x hx y hy
        rcases hclo x hx y hy with h | h
        · exact h
        · simp at h
    | cons current stack =>
      rw [wccAux] at hres
      by_cases hcf : current = from_id
      · rw [if_pos hcf] at hres
        exact absurd hres (by simp)
      · rw [if_neg hcf] at hres
        by_cases hcv : current ∈ visited
        · rw [if_pos hcv] at hres
          have hfuel' : stack.length
              + ((graphUniv m \ visited).sum fun x => (succList m x).length) < fuel := by
            simp only [List.length_cons] at hfuel
            omega
          have hclo' : ∀ x ∈ visited, ∀ y ∈ succList m x, y ∈ visited ∨ y ∈ stack := by
            intro x hx y hy
            rcases hclo x hx y hy with h | h
            · exact Or.inl h
            · rcases List.mem_cons.mp h with rfl | h2
              · exact Or.inl hcv
              · exact Or.inr h2
          have ihh := ih stack visited hfuel' hres hclo' hfrom
          rcases hz with hz | hz
          · rcases List.mem_cons.mp hz with rfl | h2
            · exact ihh z (Or.inr hcv)
            · exact ihh z (Or.inl h2)
          · exact ihh z (Or.inr hz)
        · rw [if_neg hcv] at hres
          have hfuel' : ((succList m current).reverse ++ stack).length
              + ((graphUniv m \ insert current visited).sum
                  fun x => (succList m x).length) < fuel := by
            by_cases hcu : current ∈ graphUniv m
            · have hset : graphUniv m \ insert current visited
                  = (graphUniv m \ visited).erase current := by
                ext x
                simp only [Finset.mem_sdiff, Finset.mem_insert, Finset.mem_erase]
                constructor
                · rintro ⟨h1, h2⟩
                  exact ⟨fun he => h2 (Or.inl he), h1, fun h3 => h2 (Or.inr h3)⟩
                · rintro ⟨h1, h2, h3⟩
                  exact ⟨h2, fun hor => by rcases hor with he | hv; exact h1 he; exact h3 hv⟩
              have hcm : current ∈ graphUniv m \ visited := Finset.mem_sdiff.mpr ⟨hcu, hcv⟩
              have hsum : ((graphUniv m \ visited).sum fun x => (succList m x).length)
                  = (succList m current).length
                    + (((graphUniv m \ visited).erase current).sum
                        fun x => (succList m x).length) :=
                (Finset.add_sum_erase _ (fun x => (succList m x).length) hcm).symm
              rw [hset]
              simp only [List.length_append, List.length_reverse, List.length_cons] at hfuel ⊢
              omega
            · have hnk : current ∉ mapKeys m := by
                intro hk
                exact hcu (by
                  simp only [graphUniv, List.mem_toFinset, List.mem_append]
                  exact Or.inl hk)
              have hsl : succList m current = [] := by
                simp [succList, assocGet_eq_none_of_not_mem_keys m current hnk]
              have hset : graphUniv m \ insert current visited = graphUniv m \ visited := by
                ext x
                simp only [Finset.mem_sdiff, Finset.mem_insert]
                constructor
                · rintro ⟨h1, h2⟩
                  exact ⟨h1, fun h3 => h2 (Or.inr h3)⟩
                · rintro ⟨h1, h2⟩
                  refine ⟨h1, ?_⟩
                  rintro (rfl | h3)
                  · exact hcu h1
                  · exact h2 h3
              rw [hset, hsl]
              simp only [List.length_append, List.length_reverse, List.length_nil,
                List.length_cons] at hfuel ⊢
              omega
          have hclo' : ∀ x ∈ insert current visited, ∀ y ∈ succList m x,
              y ∈ insert current visited ∨ y ∈ (succList m current).reverse ++ stack := by
            intro x hx y hy
            rcases Finset.mem_insert.mp hx with rfl | hx2
            · exact Or.inr (List.mem_append.mpr (Or.inl (List.mem_reverse.mpr hy)))
            · rcases hclo x hx2 y hy with h | h
              · exact Or.inl (Finset.mem_insert_of_mem h)
              · rcases List.mem_cons.mp h with rfl | h2
                · exact Or.inl (Finset.mem_insert_self _ _)
                · exact Or.inr (List.mem_append.mpr (Or.inr h2))
          have hfrom' : from_id ∉ insert current visited := by
            intro hmem
            rcases Finset.mem_insert.mp hmem with h | h
            · exact hcf h.symm
            · exact hfrom h
          have ihh := ih _ _ hfuel' hres hclo' hfrom'
          rcases hz with hz | hz
          · rcases List.mem_cons.mp hz with rfl | h2
            · exact ihh z (Or.inr (Finset.mem_insert_self _ _))
            · exact ihh z (Or.inl (List.mem_append.mpr (Or.inr h2)))
          · exact ihh z (Or.inr (Finset.mem_insert_of_mem hz))

theorem would_create_cycle_false_imp (g : DirectedGraph) (u v : ℕ)
    (h : would_create_cycle g u v = false) : ¬ Reaches g.adjacency_list v u := by
  have hsound := wccAux_false_sound g.adjacency_list u (wccFuel g.adjacency_list)
    [v] ∅
    (by
      unfold wccFuel
      simp only [List.length_cons, List.length_nil, Finset.sdiff_empty]
      omega)
    h
    (by intro x hx; exact absurd hx (Finset.not_mem_empty x))
    (Finset.not_mem_empty u)
  exact hsound v (Or.inl (List.mem_cons_self v []))

theorem would_create_cycle_true_of_reach (g : DirectedGraph) (u v : ℕ)
    (h : Reaches g.adjacency_list v u) : would_create_cycle g u v = true := by
  cases hw : would_create_cycle g u v with
  | false => exact absurd h (would_create_cycle_false_imp g u v hw)
  | true => rfl

/-- Edges only shrink (or stay) under a pointwise-smaller successor map,
so acyclicity is preserved. -/
theorem acyclic_of_edge_subset (m m' : List (ℕ × List ℕ))
    (h : ∀ x y, edgeRel m' x y → edgeRel m x y) (ha : Acyclic m) : Acyclic m' := by
  intro x hx
  exact ha x (Relation.TransGen.mono h hx)

theorem reach_with_new_edge (m m' : List (ℕ × List ℕ)) (u v : ℕ)
    (he : ∀ x y, edgeRel m' x y ↔ edgeRel m x y ∨ (x = u ∧ y = v))
    (hnvu : ¬ Reaches m v u) :
    ∀ a b, Reaches m' a b → Reaches m a b ∨ (Reaches m a u ∧ Reaches m v b) := by
  intro a b hab
  unfold Reaches at hab
  induction hab using Relation.ReflTransGen.head_induction_on with
  | refl => exact Or.inl Relation.ReflTransGen.refl
  | head hac hcb ih =>
    rename_i a' c'
    rcases (he a' c').mp hac with hedge | ⟨rfl, rfl⟩
    · rcases ih with h | ⟨h1, h2⟩
      · exact Or.inl (Relation.ReflTransGen.head hedge h)
      · exact Or.inr ⟨Relation.ReflTransGen.head hedge h1, h2⟩
    · rcases ih with h | ⟨h1, h2⟩
      · exact Or.inr ⟨Relation.ReflTransGen.refl, h⟩
      · exact absurd h1 hnvu

theorem acyclic_add_new_edge (m m' : List (ℕ × List ℕ)) (u v : ℕ)
    (he : ∀ x y, edgeRel m' x y ↔ edgeRel m x y ∨ (x = u ∧ y = v))
    (hnvu : ¬ Reaches m v u) (ha : Acyclic m) : Acyclic m' := by
  intro x hx
  obtain ⟨c, hedge, hreach⟩ := (Relation.TransGen.head'_iff).mp hx
  rcases (he x c).mp hedge with hxc | ⟨hxu, hcv⟩
  · rcases reach_with_new_edge m m' u v he hnvu c x hreach with h | ⟨h1, h2⟩
    · exact ha x ((Relation.TransGen.head'_iff).mpr ⟨c, hxc, h⟩)
    · exact hnvu (Relation.ReflTransGen.trans (Relation.ReflTransGen.tail h2 hxc) h1)
  · rcases reach_with_new_edge m m' u v he hnvu v x (hcv ▸ hreach) with h | ⟨h1, h2⟩
    · exact hnvu (hxu ▸ h)
    · exact hnvu h1

/-! ## Adjacency characterizations of the four topology mutations -/

theorem succList_append_singleton (m : List (ℕ × List ℕ)) (id x : ℕ) :
    succList (m ++ [(id, [])]) x = succList m x := by
  induction m with
  | nil => by_cases h : id = x <;> simp [succList, assocGet, h]
  | cons e rest ih =>
    obtain ⟨k, vs⟩ := e
    unfold succList at ih ⊢
    rw [List.cons_append, assocGet, assocGet]
    by_cases h : k = x
    · rw [if_pos h, if_pos h]
    · rw [if_neg h, if_neg h]
      exact ih

theorem mapKeys_append {α : Type} (m1 m2 : List (ℕ × α)) :
    mapKeys (m1 ++ m2) = mapKeys m1 ++ mapKeys m2 := by
  unfold mapKeys
  exact List.map_append _ m1 m2

theorem succList_assocUpdate_ne (m : List (ℕ × List ℕ)) (k x : ℕ)
    (f : List ℕ → List ℕ) (h : x ≠ k) :
    succList (assocUpdate m k f) x = succList m x := by
  unfold succList
  rw [assocGet_assocUpdate_ne m k x f h]

theorem succList_assocUpdate_self (m : List (ℕ × List ℕ)) (k : ℕ)
    (f : List ℕ → List ℕ) (ns : List ℕ) (h : assocGet m k = some ns) :
    succList (assocUpdate m k f) k = f ns := by
  unfold succList
  rw [assocGet_assocUpdate_self m k f ns h]
  rfl

/-- The adjacency list produced by `remove_node`. -/
def removeNodeAdj (m : List (ℕ × List ℕ)) (node_id : ℕ) : List (ℕ × List ℕ) :=
  (m.filter (fun e => e.1 ≠ node_id)).map
    (fun e => (e.1, e.2.filter (fun n => n ≠ node_id)))

theorem mapKeys_removeNodeAdj (m : List (ℕ × List ℕ)) (id : ℕ) :
    mapKeys (removeNodeAdj m id) = (mapKeys m).filter (fun k => k ≠ id) := by
  induction m with
  | nil => rfl
  | cons e rest ih =>
    obtain ⟨k, vs⟩ := e
    by_cases h : k = id
    · simp only [removeNodeAdj, mapKeys, List.filter_cons, List.map_cons] at ih ⊢
      simp only [h, decide_not]
      simp only [ne_eq] at ih
      simpa using ih
    · simp only [removeNodeAdj, mapKeys, List.filter_cons, List.map_cons] at ih ⊢
      simp only [ne_eq] at ih ⊢
      simp only [h, decide_not]
      simpa [h] using ih

theorem succList_removeNodeAdj (m : List (ℕ × List ℕ)) (id x : ℕ) :
    succList (removeNodeAdj m id) x
      = if x = id then [] else (succList m x).filter (fun n => n ≠ id) := by
  induction m with
  | nil =>
    unfold removeNodeAdj succList assocGet
    by_cases h : x = id <;> simp [h]
  | cons e rest ih =>
    obtain ⟨k, vs⟩ := e
    unfold removeNodeAdj at ih ⊢
    rw [List.filter_cons]
    by_cases hk : k = id
    · rw [if_neg (by simp [hk])]
      rw [ih]
      by_cases hx : x = id
      · rw [if_pos hx, if_pos hx]
      · rw [if_neg hx, if_neg hx]
        unfold succList
        rw [assocGet]
        rw [if_neg (fun hkx => hx (by rw [← hkx, hk]))]
    · rw [if_pos (by simp [hk]), List.map_cons]
      by_cases hkx : k = x
      · have hxid : x ≠ id := fun hx => hk (hkx.trans hx)
        rw [if_neg hxid]
        unfold succList
        rw [assocGet, assocGet, if_pos hkx, if_pos hkx]
        rfl
      · unfold succList at ih ⊢
        rw [assocGet, assocGet, if_neg hkx, if_neg hkx]
        exact ih

/-! ## The state invariant of reachable DirectedGraph states -/

/-- Invariant of every `DirectedGraph` state reachable by topology
mutations: unique keys, successor lists closed over the key set,
acyclicity, and caches consistent with the adjacency list. -/
structure GraphInv (g : DirectedGraph) : Prop where
  keys_nodup : (mapKeys g.adjacency_list).Nodup
  closed : ∀ x y, y ∈ succList g.adjacency_list x → y ∈ mapKeys g.adjacency_list
  acyclic : Acyclic g.adjacency_list
  topo_eq : g.cached_topo_sort = topological_sort g.adjacency_list
  rev_eq : g.cached_reverse_topo_sort = (topological_sort g.adjacency_list).reverse
  inputs_eq : g.cached_input_nodes = computeInputNodes g.adjacency_list

theorem acyclic_nil : Acyclic ([] : List (ℕ × List ℕ)) := by
  intro x hx
  obtain ⟨c, hedge, _⟩ := (Relation.TransGen.head'_iff).mp hx
  simp [edgeRel, succList, assocGet] at hedge

theorem graphInv_new : GraphInv DirectedGraph.new := by
  refine ⟨List.nodup_nil, ?_, acyclic_nil, rfl, rfl, rfl⟩
  intro x y hy
  simp [succList, assocGet] at hy

theorem graphInv_update_cache (adj : List (ℕ × List ℕ)) (c1 c2 : List ℕ)
    (c3 : List (ℕ × List ℕ))
    (h1 : (mapKeys adj).Nodup)
    (h2 : ∀ x y, y ∈ succList adj x → y ∈ mapKeys adj)
    (h3 : Acyclic adj) :
    GraphInv (update_cache ⟨adj, c1, c2, c3⟩) :=
  ⟨h1, h2, h3, rfl, rfl, rfl⟩

theorem graphInv_add_node (g : DirectedGraph) (id : ℕ) (h : GraphInv g) :
    GraphInv (g.add_node id).2 := by
  unfold DirectedGraph.add_node
  by_cases hc : containsKey g.adjacency_list id = true
  · rw [if_pos hc]
    exact h
  · rw [if_neg hc]
    have hid : id ∉ mapKeys g.adjacency_list := by
      rw [← containsKey_iff_mem_keys]
      exact hc
    have hsucc : ∀ x, succList (g.adjacency_list ++ [(id, [])]) x
        = succList g.adjacency_list x := succList_append_singleton g.adjacency_list id
    refine graphInv_update_cache _ _ _ _ ?_ ?_ ?_
    · rw [mapKeys_append, List.nodup_append]
      refine ⟨h.keys_nodup, List.nodup_singleton id, ?_⟩
      intro a ha hb
      rcases List.mem_singleton.mp hb with rfl
      exact hid ha
    · intro x y hy
      rw [hsucc x] at hy
      rw [mapKeys_append]
      exact List.mem_append_left _ (h.closed x y hy)
    · refine acyclic_of_edge_subset g.adjacency_list _ ?_ h.acyclic
      intro x y hxy
      unfold edgeRel at hxy ⊢
      rw [hsucc x] at hxy
      exact hxy

theorem graphInv_add_edge (g : DirectedGraph) (u v : ℕ) (h : GraphInv g) :
    GraphInv (g.add_edge u v).2 := by
  unfold DirectedGraph.add_edge
  by_cases hu : containsKey g.adjacency_list u = true
  case neg =>
    rw [if_pos (by exact hu)]
    exact h
  rw [if_neg (by exact fun hn => hn hu)]
  by_cases hv : containsKey g.adjacency_list v = true
  case neg =>
    rw [if_pos (by exact hv)]
    exact h
  rw [if_neg (by exact fun hn => hn hv)]
  by_cases hw : would_create_cycle g u v = true
  case pos =>
    rw [if_pos hw]
    exact h
  rw [if_neg hw]
  by_cases hmem : v ∈ succList g.adjacency_list u
  case pos =>
    rw [if_pos hmem]
    exact h
  rw [if_neg hmem]
  obtain ⟨ns, hns⟩ := Option.isSome_iff_exists.mp hu
  have hsucc_u : succList (assocUpdate g.adjacency_list u (fun l => l ++ [v])) u
      = succList g.adjacency_list u ++ [v] := by
    rw [succList_assocUpdate_self _ _ _ _ hns]
    unfold succList
    rw [hns]
    rfl
  have hedge_iff : ∀ x y,
      edgeRel (assocUpdate g.adjacency_list u (fun l => l ++ [v])) x y
        ↔ edgeRel g.adjacency_list x y ∨ (x = u ∧ y = v) := by
    intro x y
    unfold edgeRel
    by_cases hx : x = u
    · subst hx
      rw [hsucc_u, List.mem_append, List.mem_singleton]
      constructor
      · rintro (hl | rfl)
        · exact Or.inl hl
        · exact Or.inr ⟨rfl, rfl⟩
      · rintro (hl | ⟨-, rfl⟩)
        · exact Or.inl hl
        · exact Or.inr rfl
    · rw [succList_assocUpdate_ne _ _ _ _ hx]
      constructor
      · exact Or.inl
      · rintro (hl | ⟨rfl, -⟩)
        · exact hl
        · exact absurd rfl hx
  have hnvu : ¬ Reaches g.adjacency_list v u := by
    apply would_create_cycle_false_imp
    cases hwc : would_create_cycle g u v with
    | false => rfl
    | true => exact absurd hwc hw
  refine graphInv_update_cache _ _ _ _ ?_ ?_ ?_
  · rw [mapKeys_assocUpdate]
    exact h.keys_nodup
  · intro x y hy
    rw [mapKeys_assocUpdate]
    rcases (hedge_iff x y).mp hy with hxy | ⟨-, rfl⟩
    · exact h.closed x y hxy
    · rw [← containsKey_iff_mem_keys]
      exact hv
  · exact acyclic_add_new_edge g.adjacency_list _ u v hedge_iff hnvu h.acyclic

theorem graphInv_remove_node (g : DirectedGraph) (id : ℕ) (h : GraphInv g) :
    GraphInv (g.remove_node id).2 := by
  unfold DirectedGraph.remove_node
  by_cases hc : containsKey g.adjacency_list id = true
  case neg =>
    rw [if_pos (by exact fun hn => hc hn)]
    exact h
  rw [if_neg (by exact fun hn => hn hc)]
  refine graphInv_update_cache _ _ _ _ ?_ ?_ ?_
  · show (mapKeys (removeNodeAdj g.adjacency_list id)).Nodup
    rw [mapKeys_removeNodeAdj]
    exact h.keys_nodup.filter _
  · intro x y hy
    show y ∈ mapKeys (removeNodeAdj g.adjacency_list id)
    rw [mapKeys_removeNodeAdj, List.mem_filter]
    have hy2 : y ∈ succList (removeNodeAdj g.adjacency_list id) x := hy
    rw [succList_removeNodeAdj] at hy2
    by_cases hx : x = id
    · rw [if_pos hx] at hy2
      simp at hy2
    · rw [if_neg hx] at hy2
      rw [List.mem_filter] at hy2
      exact ⟨h.closed x y hy2.1, hy2.2⟩
  · refine acyclic_of_edge_subset g.adjacency_list _ ?_ h.acyclic
    intro x y hxy
    unfold edgeRel at hxy ⊢
    have hxy2 : y ∈ succList (removeNodeAdj g.adjacency_list id) x := hxy
    rw [succList_removeNodeAdj] at hxy2
    by_cases hx : x = id
    · rw [if_pos hx] at hxy2
      simp at hxy2
    · rw [if_neg hx] at hxy2
      exact (List.mem_filter.mp hxy2).1

theorem graphInv_remove_edge (g : DirectedGraph) (u v : ℕ) (h : GraphInv g) :
    GraphInv (g.remove_edge u v).2 := by
  unfold DirectedGraph.remove_edge
  cases hns : assocGet g.adjacency_list u with
  | none => exact h
  | some neighbors =>
    dsimp only
    by_cases hmem : v ∈ neighbors
    case neg =>
      rw [if_neg hmem]
      exact h
    rw [if_pos hmem]
    have hsubset : ∀ x y,
        edgeRel (assocUpdate g.adjacency_list u (fun ns => ns.filter (fun n => n ≠ v))) x y
          → edgeRel g.adjacency_list x y := by
      intro x y hxy
      unfold edgeRel at hxy ⊢
      by_cases hx : x = u
      · subst hx
        rw [succList_assocUpdate_self _ _ _ _ hns] at hxy
        unfold succList
        rw [hns]
        exact (List.mem_filter.mp hxy).1
      · rw [succList_assocUpdate_ne _ _ _ _ hx] at hxy
        exact hxy
    refine graphInv_update_cache _ _ _ _ ?_ ?_ ?_
    · rw [mapKeys_assocUpdate]
      exact h.keys_nodup
    · intro x y hy
      rw [mapKeys_assocUpdate]
      exact h.closed x y (hsubset x y hy)
    · exact acyclic_of_edge_subset g.adjacency_list _ hsubset h.acyclic

theorem graphInv_applyOp (g : DirectedGraph) (op : GraphOp) (h : GraphInv g) :
    GraphInv (applyOp g op) := by
  cases op with
  | addNode id => exact graphInv_add_node g id h
  | addEdge u v => exact graphInv_add_edge g u v h
  | removeNode id => exact graphInv_remove_node g id h
  | removeEdge u v => exact graphInv_remove_edge g u v h

theorem graphInv_foldl (ops : List GraphOp) :
    ∀ g : DirectedGraph, GraphInv g → GraphInv (ops.foldl applyOp g) := by
  induction ops with
  | nil => intro g h; exact h
  | cons op ops ih =>
    intro g h
    exact ih _ (graphInv_applyOp g op h)

theorem reachable_graphInv (g : DirectedGraph) (hg : ReachableGraph g) : GraphInv g := by
  obtain ⟨ops, rfl⟩ := hg
  exact graphInv_foldl ops DirectedGraph.new graphInv_new

/-- C4: every `DirectedGraph` state reachable from `DirectedGraph::new`
by any finite sequence of `add_node`, `add_edge`, `remove_node` and
`remove_edge` contains no directed cycle: no node reaches itself over
one or more edges. -/
theorem C4_acyclicity_invariant (g : DirectedGraph) (hg : ReachableGraph g) :
    Acyclic g.adjacency_list :=
  (reachable_graphInv g hg).acyclic

/-- The three-node chain 1 → 2 → 3 of the repository's own cycle test. -/
def chainGraph : DirectedGraph :=
  [GraphOp.addNode 1, GraphOp.addNode 2, GraphOp.addNode 3,
    GraphOp.addEdge 1 2, GraphOp.addEdge 2 3].foldl applyOp DirectedGraph.new

/-- C4 witness: the chain graph is reachable and acyclic. -/
theorem C4_witness : ReachableGraph chainGraph ∧ Acyclic chainGraph.adjacency_list := by
  have hreach : ReachableGraph chainGraph :=
    ⟨[GraphOp.addNode 1, GraphOp.addNode 2, GraphOp.addNode 3,
      GraphOp.addEdge 1 2, GraphOp.addEdge 2 3], rfl⟩
  exact ⟨hreach, C4_acyclicity_invariant chainGraph hreach⟩

/-- C3: whenever both endpoints are present and `v` transitively reaches
`u` over the current edges, `add_edge u v` reports the cycle error and
returns the graph completely unchanged (adjacency list and all three
caches included, since the error path performs no mutation). -/
theorem C3_cycle_rejection (g : DirectedGraph) (u v : ℕ)
    (hu : containsKey g.adjacency_list u = true)
    (hv : containsKey g.adjacency_list v = true)
    (hreach : Relation.TransGen (edgeRel g.adjacency_list) v u) :
    g.add_edge u v = (Except.error GraphError.cycleWouldForm, g) := by
  unfold DirectedGraph.add_edge
  rw [if_neg (by exact fun hn => hn hu), if_neg (by exact fun hn => hn hv)]
  have hw : would_create_cycle g u v = true :=
    would_create_cycle_true_of_reach g u v hreach.to_reflTransGen
  rw [if_pos hw]

/-- C3 witness: attempting the cycle-closing edge 3 → 1 on the chain
graph (the repository's own test) is rejected with the graph unchanged. -/
theorem C3_witness :
    containsKey chainGraph.adjacency_list 3 = true
      ∧ containsKey chainGraph.adjacency_list 1 = true
      ∧ chainGraph.add_edge 3 1 = (Except.error GraphError.cycleWouldForm, chainGraph) := by
  have h12 : edgeRel chainGraph.adjacency_list 1 2 := by
    show 2 ∈ succList chainGraph.adjacency_list 1
    decide
  have h23 : edgeRel chainGraph.adjacency_list 2 3 := by
    show 3 ∈ succList chainGraph.adjacency_list 2
    decide
  have hreach : Relation.TransGen (edgeRel chainGraph.adjacency_list) 1 3 :=
    Relation.TransGen.tail (Relation.TransGen.single h12) h23
  exact ⟨by decide, by decide, C3_cycle_rejection chainGraph 3 1 (by decide) (by decide) hreach⟩

/-! ## Correctness of the DFS topological sort -/

/-- In `l`, every successor of every listed node appears at a strictly
earlier position. -/
def SuccsBefore (m : List (ℕ × List ℕ)) (l : List ℕ) : Prop :=
  ∀ i x, l.get? i = some x → ∀ y ∈ succList m x, ∃ j, j < i ∧ l.get? j = some y

theorem succsBefore_nil (m : List (ℕ × List ℕ)) : SuccsBefore m [] := by
  intro i x h
  simp at h

theorem succsBefore_append (m : List (ℕ × List ℕ)) (l : List ℕ) (n : ℕ)
    (hl : SuccsBefore m l) (hn : ∀ y ∈ succList m n, y ∈ l) :
    SuccsBefore m (l ++ [n]) := by
  intro i x hget y hy
  rw [List.get?_eq_getElem?] at hget
  by_cases hi : i < l.length
  · rw [List.getElem?_append_left hi] at hget
    rw [← List.get?_eq_getElem?] at hget
    obtain ⟨j, hj, hjy⟩ := hl i x hget y hy
    refine ⟨j, hj, ?_⟩
    rw [List.get?_eq_getElem?, List.getElem?_append_left (Nat.lt_trans hj hi),
      ← List.get?_eq_getElem?]
    exact hjy
  · rw [List.getElem?_append_right (Nat.le_of_not_lt hi)] at hget
    cases hd : i - l.length with
    | zero =>
      rw [hd] at hget
      simp only [List.getElem?_cons_zero, Option.some.injEq] at hget
      subst hget
      have hyl := hn y hy
      obtain ⟨j, hjy⟩ := List.mem_iff_get?.mp hyl
      have hjlt : j < l.length := by
        rw [List.get?_eq_getElem?] at hjy
        exact (List.getElem?_eq_some.mp hjy).1
      refine ⟨j, by omega, ?_⟩
      rw [List.get?_eq_getElem?, List.getElem?_append_left hjlt, ← List.get?_eq_getElem?]
      exact hjy
    | succ k =>
      rw [hd] at hget
      simp at hget

theorem sdiff_insert_eq_erase (K temp : Finset ℕ) (n : ℕ) :
    K \ insert n temp = (K \ temp).erase n := by
  ext x
  simp only [Finset.mem_sdiff, Finset.mem_insert, Finset.mem_erase]
  constructor
  · rintro ⟨h1, h2⟩
    exact ⟨fun he => h2 (Or.inl he), h1, fun h3 => h2 (Or.inr h3)⟩
  · rintro ⟨h1, h2, h3⟩
    refine ⟨h2, ?_⟩
    rintro (he | hv)
    · exact h1 he
    · exact h3 hv

theorem visitList_nil_eq (m : List (ℕ × List ℕ)) (fuel : ℕ) (temp visited : Finset ℕ)
    (result : List ℕ) : visitList m fuel [] temp visited result = (visited, result) := by
  cases fuel <;> rfl

theorem visitList_cons_eq (m : List (ℕ × List ℕ)) (fuel n : ℕ) (ns : List ℕ)
    (temp visited : Finset ℕ) (result : List ℕ) :
    visitList m (fuel + 1) (n :: ns) temp visited result
      = if n ∈ temp then visitList m fuel ns temp visited result
        else if n ∈ visited then visitList m fuel ns temp visited result
        else
          visitList m fuel ns temp
            (insert n (visitList m fuel (succList m n) (insert n temp) visited result).1)
            ((visitList m fuel (succList m n) (insert n temp) visited result).2 ++ [n]) :=
  rfl

theorem visitList_spec (m : List (ℕ × List ℕ))
    (hclosed : ∀ x y, y ∈ succList m x → y ∈ mapKeys m)
    (hacyc : Acyclic m) :
    ∀ (fuel : ℕ) (ns : List ℕ) (temp visited : Finset ℕ) (result : List ℕ),
      ns.length + (((mapKeys m).toFinset \ temp).sum fun x => 1 + (succList m x).length)
          < fuel →
      (∀ n ∈ ns, n ∈ mapKeys m) →
      (∀ n ∈ ns, ∀ t ∈ temp, Relation.TransGen (edgeRel m) t n) →
      (∀ x, x ∈ visited ↔ x ∈ result) →
      result.Nodup →
      SuccsBefore m result →
      (∀ x ∈ result, x ∈ mapKeys m) →
      (∀ x ∈ result, x ∉ temp) →
      (∃ tail, (visitList m fuel ns temp visited result).2 = result ++ tail)
        ∧ (∀ x, x ∈ (visitList m fuel ns temp visited result).1
            ↔ x ∈ (visitList m fuel ns temp visited result).2)
        ∧ (visitList m fuel ns temp visited result).2.Nodup
        ∧ SuccsBefore m (visitList m fuel ns temp visited result).2
        ∧ (∀ x ∈ (visitList m fuel ns temp visited result).2, x ∈ mapKeys m)
        ∧ (∀ x ∈ (visitList m fuel ns temp visited result).2, x ∉ temp)
        ∧ (∀ n ∈ ns, n ∈ (visitList m fuel ns temp visited result).2) := by
  intro fuel
  induction fuel with
  | zero =>
    intro ns temp visited result hfuel
    omega
  | succ fuel ih =>
    intro ns temp visited result hfuel hns htemp hvr hnodup hsb hkeys hnt
    cases ns with
    | nil =>
      rw [visitList_nil_eq]
      refine ⟨⟨[], (List.append_nil result).symm⟩, hvr, hnodup, hsb, hkeys, hnt, ?_⟩
      intro x hx
      simp at hx
    | cons n ns' =>
      have hnk : n ∈ mapKeys m := hns n (List.mem_cons_self n ns')
      rw [visitList_cons_eq]
      by_cases hntemp : n ∈ temp
      · exact absurd (htemp n (List.mem_cons_self _ _) n hntemp) (hacyc n)
      · rw [if_neg hntemp]
        by_cases hnvis : n ∈ visited
        · rw [if_pos hnvis]
          have hfuel' : ns'.length
              + (((mapKeys m).toFinset \ temp).sum fun x => 1 + (succList m x).length)
              < fuel := by
            simp only [List.length_cons] at hfuel
            omega
          have posts := ih ns' temp visited result hfuel'
            (fun x hx => hns x (List.mem_cons_of_mem _ hx))
            (fun x hx => htemp x (List.mem_cons_of_mem _ hx))
            hvr hnodup hsb hkeys hnt
          obtain ⟨⟨tail, htail⟩, hiff, hnd, hsb2, hk2, hnt2, hmem2⟩ := posts
          refine ⟨⟨tail, htail⟩, hiff, hnd, hsb2, hk2, hnt2, ?_⟩
          intro x hx
          rcases List.mem_cons.mp hx with rfl | hx2
          · rw [htail]
            exact List.mem_append_left _ ((hvr x).mp hnvis)
          · exact hmem2 x hx2
        · rw [if_neg hnvis]
          -- the recursive visit of the successors of n
          have hmemK : n ∈ ((mapKeys m).toFinset \ temp) := by
            rw [Finset.mem_sdiff]
            exact ⟨List.mem_toFinset.mpr hnk, hntemp⟩
          have hsum : (((mapKeys m).toFinset \ temp).sum fun x => 1 + (succList m x).length)
              = (1 + (succList m n).length)
                + ((((mapKeys m).toFinset \ temp).erase n).sum
                    fun x => 1 + (succList m x).length) :=
            (Finset.add_sum_erase _ (fun x => 1 + (succList m x).length) hmemK).symm
          have hfuel_child : (succList m n).length
              + (((mapKeys m).toFinset \ insert n temp).sum
                  fun x => 1 + (succList m x).length) < fuel := by
            rw [sdiff_insert_eq_erase]
            simp only [List.length_cons] at hfuel
            omega
          have hfuel_cont : ns'.length
              + (((mapKeys m).toFinset \ temp).sum fun x => 1 + (succList m x).length)
              < fuel := by
            simp only [List.length_cons] at hfuel
            omega
          have hnt_child : ∀ x ∈ result, x ∉ insert n temp := by
            intro x hx hmem
            rcases Finset.mem_insert.mp hmem with rfl | hm
            · exact hnvis ((hvr x).mpr hx)
            · exact hnt x hx hm
          have htemp_child : ∀ y ∈ succList m n, ∀ t ∈ insert n temp,
              Relation.TransGen (edgeRel m) t y := by
            intro y hy t ht
            rcases Finset.mem_insert.mp ht with rfl | hm
            · exact Relation.TransGen.single hy
            · exact Relation.TransGen.tail (htemp n (List.mem_cons_self _ _) t hm) hy
          have cposts := ih (succList m n) (insert n temp) visited result hfuel_child
            (fun y hy => hclosed n y hy) htemp_child hvr hnodup hsb hkeys hnt_child
          obtain ⟨⟨t1, ht1⟩, ciff, cnd, csb, ck, cnt, cmem⟩ := cposts
          set c := visitList m fuel (succList m n) (insert n temp) visited result with hc
          have hn_not_c2 : n ∉ c.2 := by
            intro hmem
            exact cnt n hmem (Finset.mem_insert_self n temp)
          have hvr' : ∀ x, x ∈ insert n c.1 ↔ x ∈ c.2 ++ [n] := by
            intro x
            rw [Finset.mem_insert, List.mem_append, List.mem_singleton, ciff x]
            tauto
          have hnodup' : (c.2 ++ [n]).Nodup := by
            rw [List.nodup_append]
            refine ⟨cnd, List.nodup_singleton n, ?_⟩
            intro a ha hb
            rcases List.mem_singleton.mp hb with rfl
            exact hn_not_c2 ha
          have hsb' : SuccsBefore m (c.2 ++ [n]) :=
            succsBefore_append m c.2 n csb (fun y hy => cmem y hy)
          have hkeys' : ∀ x ∈ c.2 ++ [n], x ∈ mapKeys m := by
            intro x hx
            rcases List.mem_append.mp hx with hx2 | hx2
            · exact ck x hx2
            · rcases List.mem_singleton.mp hx2 with rfl
              exact hnk
          have hnt' : ∀ x ∈ c.2 ++ [n], x ∉ temp := by
            intro x hx
            rcases List.mem_append.mp hx with hx2 | hx2
            · intro hm
              exact cnt x hx2 (Finset.mem_insert_of_mem hm)
            · rcases List.mem_singleton.mp hx2 with rfl
              exact hntemp
          have dposts := ih ns' temp (insert n c.1) (c.2 ++ [n]) hfuel_cont
            (fun x hx => hns x (List.mem_cons_of_mem _ hx))
            (fun x hx => htemp x (List.mem_cons_of_mem _ hx))
            hvr' hnodup' hsb' hkeys' hnt'
          obtain ⟨⟨t2, ht2⟩, diff, dnd, dsb, dk, dnt, dmem⟩ := dposts
          refine ⟨⟨t1 ++ [n] ++ t2, ?_⟩, diff, dnd, dsb, dk, dnt, ?_⟩
          · rw [ht2, ht1]
            simp [List.append_assoc]
          · intro x hx
            rcases List.mem_cons.mp hx with rfl | hx2
            · rw [ht2]
              exact List.mem_append_left _ (List.mem_append_right _ (List.mem_singleton.mpr rfl))
            · exact dmem x hx2

theorem topological_sort_props (m : List (ℕ × List ℕ))
    (hclosed : ∀ x y, y ∈ succList m x → y ∈ mapKeys m)
    (hacyc : Acyclic m) :
    (topological_sort m).Nodup
      ∧ (∀ x, x ∈ topological_sort m ↔ x ∈ mapKeys m)
      ∧ SuccsBefore m (topological_sort m) := by
  have hfuel : (mapKeys m).length
      + (((mapKeys m).toFinset \ ∅).sum fun x => 1 + (succList m x).length)
      < visitFuel m := by
    unfold visitFuel
    rw [Finset.sdiff_empty]
    omega
  have posts := visitList_spec m hclosed hacyc (visitFuel m) (mapKeys m) ∅ ∅ []
    hfuel (fun x hx => hx) (fun x _ t ht => absurd ht (Finset.not_mem_empty t))
    (by intro x; simp)
    List.nodup_nil (succsBefore_nil m) (by intro x hx; simp at hx) (by intro x hx; simp at hx)
  obtain ⟨-, -, hnd, hsb, hk, -, hmem⟩ := posts
  refine ⟨hnd, ?_, hsb⟩
  intro x
  constructor
  · exact hk x
  · exact hmem x

/-- `a` occurs at a strictly earlier position than `b` in `l`. -/
def appearsBefore (l : List ℕ) (a b : ℕ) : Prop :=
  ∃ i, i < l.length ∧ ∃ j, j < l.length ∧ i < j
    ∧ l.get? i = some a ∧ l.get? j = some b

instance (l : List ℕ) (a b : ℕ) : Decidable (appearsBefore l a b) := by
  unfold appearsBefore
  infer_instance

theorem appearsBefore_reverse (l : List ℕ) (a b : ℕ) (h : appearsBefore l a b) :
    appearsBefore l.reverse b a := by
  obtain ⟨i, hi, j, hj, hij, ha, hb⟩ := h
  refine ⟨l.length - 1 - j, by rw [List.length_reverse]; omega,
    l.length - 1 - i, by rw [List.length_reverse]; omega, by omega, ?_, ?_⟩
  · rw [List.get?_eq_getElem?, List.getElem?_reverse (by omega)]
    have hidx : l.length - 1 - (l.length - 1 - j) = j := by omega
    rw [hidx, ← List.get?_eq_getElem?]
    exact hb
  · rw [List.get?_eq_getElem?, List.getElem?_reverse (by omega)]
    have hidx : l.length - 1 - (l.length - 1 - i) = i := by omega
    rw [hidx, ← List.get?_eq_getElem?]
    exact ha

/-! ## The rebuilt predecessor index contains exactly the edges -/

theorem assocGet_assocUpdate_none {α : Type} (m : List (ℕ × α)) (k : ℕ) (f : α → α)
    (h : assocGet m k = none) : assocGet (assocUpdate m k f) k = none := by
  apply assocGet_eq_none_of_not_mem_keys
  rw [mapKeys_assocUpdate]
  intro hk
  rw [← assocGet_isSome_iff_mem_keys, h] at hk
  simp at hk

theorem mem_inputs_pushInput (acc : List (ℕ × List ℕ)) (dst src q x : ℕ)
    (h : x ∈ (assocGet acc q).getD []) :
    x ∈ (assocGet (pushInput acc dst src) q).getD [] := by
  unfold pushInput
  by_cases hq : q = dst
  · subst hq
    cases hacc : assocGet acc q with
    | none =>
      rw [hacc] at h
      simp at h
    | some l =>
      rw [assocGet_assocUpdate_self acc q _ l hacc]
      rw [hacc] at h
      simp only [Option.getD_some] at h ⊢
      exact List.mem_append_left _ h
  · rw [assocGet_assocUpdate_ne acc dst q _ hq]
    exact h

theorem mem_inputs_innerFold (ds : List ℕ) (src q x : ℕ) :
    ∀ acc : List (ℕ × List ℕ), x ∈ (assocGet acc q).getD [] →
      x ∈ (assocGet (ds.foldl (fun a d => pushInput a d src) acc) q).getD [] := by
  induction ds with
  | nil => intro acc h; exact h
  | cons d ds ih =>
    intro acc h
    rw [List.foldl_cons]
    exact ih _ (mem_inputs_pushInput acc d src q x h)

theorem mem_inputs_outerFold (es : List (ℕ × List ℕ)) (q x : ℕ) :
    ∀ acc : List (ℕ × List ℕ), x ∈ (assocGet acc q).getD [] →
      x ∈ (assocGet (es.foldl
          (fun acc e => e.2.foldl (fun a d => pushInput a d e.1) acc) acc) q).getD [] := by
  induction es with
  | nil => intro acc h; exact h
  | cons e es ih =>
    intro acc h
    rw [List.foldl_cons]
    exact ih _ (mem_inputs_innerFold e.2 e.1 q x acc h)

theorem mapKeys_pushInput (acc : List (ℕ × List ℕ)) (dst src : ℕ) :
    mapKeys (pushInput acc dst src) = mapKeys acc := by
  unfold pushInput
  exact mapKeys_assocUpdate acc dst _

theorem mapKeys_innerFold (ds : List ℕ) (src : ℕ) :
    ∀ acc : List (ℕ × List ℕ),
      mapKeys (ds.foldl (fun a d => pushInput a d src) acc) = mapKeys acc := by
  induction ds with
  | nil => intro acc; rfl
  | cons d ds ih =>
    intro acc
    rw [List.foldl_cons, ih, mapKeys_pushInput]

theorem mapKeys_outerFold (es : List (ℕ × List ℕ)) :
    ∀ acc : List (ℕ × List ℕ),
      mapKeys (es.foldl
        (fun acc e => e.2.foldl (fun a d => pushInput a d e.1) acc) acc) = mapKeys acc := by
  induction es with
  | nil => intro acc; rfl
  | cons e es ih =>
    intro acc
    rw [List.foldl_cons, ih, mapKeys_innerFold]

theorem innerFold_adds (ds : List ℕ) (src v : ℕ) :
    ∀ acc : List (ℕ × List ℕ), v ∈ ds → containsKey acc v = true →
      src ∈ (assocGet (ds.foldl (fun a d => pushInput a d src) acc) v).getD [] := by
  induction ds with
  | nil =>
    intro acc h
    simp at h
  | cons d ds ih =>
    intro acc hmem hkey
    rw [List.foldl_cons]
    by_cases hd : d = v
    · subst hd
      obtain ⟨l, hl⟩ := Option.isSome_iff_exists.mp hkey
      have hpushed : src ∈ (assocGet (pushInput acc d src) d).getD [] := by
        unfold pushInput
        rw [assocGet_assocUpdate_self acc d _ l hl]
        simp
      exact mem_inputs_innerFold ds src d src _ hpushed
    · rcases List.mem_cons.mp hmem with rfl | hmem2
      · exact absurd rfl hd
      · apply ih _ hmem2
        unfold containsKey
        rw [assocGet_isSome_iff_mem_keys, mapKeys_pushInput]
        rw [← assocGet_isSome_iff_mem_keys]
        exact hkey

theorem mem_computeInputNodes (m : List (ℕ × List ℕ)) (u v : ℕ)
    (hedge : v ∈ succList m u) (hvk : v ∈ mapKeys m) :
    u ∈ (assocGet (computeInputNodes m) v).getD [] := by
  cases hget : assocGet m u with
  | none =>
    unfold succList at hedge
    rw [hget] at hedge
    simp at hedge
  | some dsts =>
    unfold succList at hedge
    rw [hget] at hedge
    simp only [Option.getD_some] at hedge
    have hentry : (u, dsts) ∈ m := assocGet_mem m u dsts hget
    unfold computeInputNodes
    have hinitkeys : mapKeys (m.map fun e => (e.1, ([] : List ℕ))) = mapKeys m := by
      unfold mapKeys
      rw [List.map_map]
      rfl
    -- generalized fold statement
    have main : ∀ (es : List (ℕ × List ℕ)) (acc : List (ℕ × List ℕ)),
        (u, dsts) ∈ es → containsKey acc v = true →
        u ∈ (assocGet (es.foldl
            (fun acc e => e.2.foldl (fun a d => pushInput a d e.1) acc) acc) v).getD [] := by
      intro es
      induction es with
      | nil =>
        intro acc h
        simp at h
      | cons e es ih =>
        intro acc hmem hkey
        rw [List.foldl_cons]
        rcases List.mem_cons.mp hmem with heq | hmem2
        · subst heq
          apply mem_inputs_outerFold es v u
          exact innerFold_adds dsts u v acc hedge hkey
        · apply ih _ hmem2
          unfold containsKey
          rw [assocGet_isSome_iff_mem_keys, mapKeys_innerFold]
          rw [← assocGet_isSome_iff_mem_keys]
          exact hkey
    apply main m _ hentry
    unfold containsKey
    rw [assocGet_isSome_iff_mem_keys, hinitkeys]
    exact hvk

/-- C2 (corrected): after every topology mutation, for every edge u→v in
the adjacency list, u appears before v in the *reverse* topological order
`get_reverse_topological_order` (the engine's processing order) — in the
sequence returned by `get_topological_order` u appears strictly *after*
v, because the DFS post-order cached there lists sinks first — and
u appears in `get_input_node_ids(v)` and v in u's successor list. -/
theorem C2_cache_consistency_amended (g : DirectedGraph) (hg : ReachableGraph g)
    (u v : ℕ) (hedge : v ∈ succList g.adjacency_list u) :
    appearsBefore g.get_reverse_topological_order u v
      ∧ appearsBefore g.get_topological_order v u
      ∧ u ∈ g.get_input_node_ids v
      ∧ v ∈ succList g.adjacency_list u := by
  have inv := reachable_graphInv g hg
  obtain ⟨hnd, hmem, hsb⟩ := topological_sort_props g.adjacency_list inv.closed inv.acyclic
  have huk : u ∈ mapKeys g.adjacency_list := by
    cases hget : assocGet g.adjacency_list u with
    | none =>
      unfold succList at hedge
      rw [hget] at hedge
      simp at hedge
    | some dsts =>
      rw [← assocGet_isSome_iff_mem_keys, hget]
      rfl
  have hut : u ∈ topological_sort g.adjacency_list := (hmem u).mpr huk
  obtain ⟨i, hiu⟩ := List.mem_iff_get?.mp hut
  obtain ⟨j, hij, hjv⟩ := hsb i u hiu v hedge
  have hilt : i < (topological_sort g.adjacency_list).length := by
    rw [List.get?_eq_getElem?] at hiu
    exact (List.getElem?_eq_some.mp hiu).1
  have hbefore : appearsBefore (topological_sort g.adjacency_list) v u :=
    ⟨j, by omega, i, hilt, hij, hjv, hiu⟩
  refine ⟨?_, ?_, ?_, hedge⟩
  · rw [DirectedGraph.get_reverse_topological_order, inv.rev_eq]
    exact appearsBefore_reverse _ v u hbefore
  · rw [DirectedGraph.get_topological_order, inv.topo_eq]
    exact hbefore
  · rw [DirectedGraph.get_input_node_ids, inv.inputs_eq]
    exact mem_computeInputNodes g.adjacency_list u v hedge (inv.closed u v hedge)

/-- C2 counterexample: the reachable chain graph 1 → 2 → 3 has
`get_topological_order() = [3, 2, 1]` (the repository's own unit test
asserts exactly this), so for the edge 1 → 2 the node 1 does *not*
appear before 2 in `get_topological_order()`: the claim is false as
stated — the cached "topological order" lists sinks first. -/
theorem C2_counterexample_topological_order_direction :
    ReachableGraph chainGraph
      ∧ 2 ∈ succList chainGraph.adjacency_list 1
      ∧ chainGraph.get_topological_order = [3, 2, 1]
      ∧ ¬ appearsBefore chainGraph.get_topological_order 1 2 := by
  refine ⟨⟨[GraphOp.addNode 1, GraphOp.addNode 2, GraphOp.addNode 3,
    GraphOp.addEdge 1 2, GraphOp.addEdge 2 3], rfl⟩, by decide, by decide, by decide⟩

/-- C2 witness: the amended theorem applied to the chain graph's edge
1 → 2. -/
theorem C2_witness :
    ReachableGraph chainGraph
      ∧ 2 ∈ succList chainGraph.adjacency_list 1
      ∧ (appearsBefore chainGraph.get_reverse_topological_order 1 2
          ∧ appearsBefore chainGraph.get_topological_order 2 1
          ∧ 1 ∈ chainGraph.get_input_node_ids 2
          ∧ 2 ∈ succList chainGraph.adjacency_list 1) := by
  have hreach : ReachableGraph chainGraph :=
    ⟨[GraphOp.addNode 1, GraphOp.addNode 2, GraphOp.addNode 3,
      GraphOp.addEdge 1 2, GraphOp.addEdge 2 3], rfl⟩
  exact ⟨hreach, by decide,
    C2_cache_consistency_amended chainGraph hreach 1 2 (by decide)⟩

/-! ## C5: fan-in summation inside `AudioGraph::process` -/

/-- Modelled from the spec: the claimed "pointwise (sample-wise) sum" of a
family of buffers, sample `t` of the result being the sum of the samples
`t` of the summands (a buffer too short to reach `t` contributes `0`,
mirroring the truncating `add_buffer`). -/
def pointwiseSum (L : ℕ) (bs : List (List ℚ)) : List ℚ :=
  (List.range L).map (fun t => (bs.map (fun b => b.getD t 0)).sum)

theorem map_range_getD (l : List ℚ) :
    (List.range l.length).map (fun t => l.getD t 0) = l := by
  apply List.ext_getElem?
  intro i
  by_cases hi : i < l.length
  · rw [List.getElem?_map, List.getElem?_range hi, Option.map_some',
      List.getD_eq_getElem?_getD, List.getElem?_eq_getElem hi]
    rfl
  · rw [List.getElem?_map]
    have h1 : (List.range l.length)[i]? = none := by
      rw [List.getElem?_eq_none]
      rw [List.length_range]
      omega
    rw [h1, List.getElem?_eq_none (Nat.le_of_not_lt hi)]
    rfl

theorem add_buffer_getD (src dst : List ℚ) (h : src.length = dst.length) (t : ℕ)
    (ht : t < dst.length) :
    (add_buffer src dst).getD t 0 = dst.getD t 0 + src.getD t 0 := by
  induction src generalizing dst t with
  | nil =>
    rw [show add_buffer [] dst = dst from rfl, List.getD_nil, add_zero]
  | cons s ss ih =>
    cases dst with
    | nil => simp at ht
    | cons d ds =>
      cases t with
      | zero =>
        rw [show add_buffer (s :: ss) (d :: ds) = (d + s) :: add_buffer ss ds from rfl,
          List.getD_cons_zero, List.getD_cons_zero, List.getD_cons_zero]
      | succ t =>
        rw [show add_buffer (s :: ss) (d :: ds) = (d + s) :: add_buffer ss ds from rfl,
          List.getD_cons_succ, List.getD_cons_succ, List.getD_cons_succ]
        exact ih ds (by simpa using h) t (by simpa using ht)

theorem getD_replicate_zero (L t : ℕ) : (List.replicate L (0 : ℚ)).getD t 0 = 0 := by
  rw [List.getD_eq_getElem?_getD, List.getElem?_replicate]
  split <;> rfl

theorem pointwiseSum_nil (L : ℕ) : pointwiseSum L [] = List.replicate L 0 := by
  unfold pointwiseSum
  simp only [List.map_nil, List.sum_nil]
  rw [List.map_const', List.length_range]

theorem nodup_get?_inj (l : List ℕ) (hnd : l.Nodup) (i j a : ℕ)
    (hi : l.get? i = some a) (hj : l.get? j = some a) : i = j := by
  rw [List.get?_eq_getElem?] at hi hj
  obtain ⟨hil, hie⟩ := List.getElem?_eq_some.mp hi
  obtain ⟨hjl, hje⟩ := List.getElem?_eq_some.mp hj
  have hget : l.get ⟨i, hil⟩ = l.get ⟨j, hjl⟩ := by
    rw [List.get_eq_getElem, List.get_eq_getElem, hie, hje]
  exact congrArg Fin.val ((List.Nodup.get_inj_iff hnd).mp hget)

theorem assocGet_map_nil (m : List (ℕ × List ℕ)) (q : ℕ) :
    (assocGet (m.map (fun e => (e.1, ([] : List ℕ)))) q).getD [] = [] := by
  induction m with
  | nil => rfl
  | cons e rest ih =>
    rw [List.map_cons, assocGet]
    by_cases h : e.1 = q
    · rw [if_pos h]
      rfl
    · rw [if_neg h]
      exact ih

/-! ### The rebuilt predecessor index only records edges -/

theorem inputs_inv_pushInput (m acc : List (ℕ × List ℕ)) (dst src : ℕ)
    (hds : dst ∈ succList m src)
    (hinv : ∀ q x, x ∈ (assocGet acc q).getD [] → q ∈ succList m x) :
    ∀ q x, x ∈ (assocGet (pushInput acc dst src) q).getD [] → q ∈ succList m x := by
  intro q x hx
  unfold pushInput at hx
  by_cases hq : q = dst
  · subst hq
    cases hacc : assocGet acc q with
    | none =>
      rw [assocGet_assocUpdate_none acc q _ hacc] at hx
      simp at hx
    | some l =>
      rw [assocGet_assocUpdate_self acc q _ l hacc] at hx
      simp only [Option.getD_some] at hx
      rcases List.mem_append.mp hx with hxl | hxs
      · exact hinv q x (by rw [hacc]; exact hxl)
      · have hxe : x = src := List.mem_singleton.mp hxs
        subst hxe
        exact hds
  · rw [assocGet_assocUpdate_ne acc dst q _ hq] at hx
    exact hinv q x hx

theorem inputs_inv_innerFold (m : List (ℕ × List ℕ)) (src : ℕ) :
    ∀ ds : List ℕ, (∀ d ∈ ds, d ∈ succList m src) →
      ∀ acc : List (ℕ × List ℕ),
        (∀ q x, x ∈ (assocGet acc q).getD [] → q ∈ succList m x) →
        ∀ q x, x ∈ (assocGet (ds.foldl (fun a d => pushInput a d src) acc) q).getD [] →
          q ∈ succList m x := by
  intro ds
  induction ds with
  | nil => intro _ acc hinv; exact hinv
  | cons d ds ih =>
    intro hds acc hinv
    rw [List.foldl_cons]
    exact ih (fun d' hd' => hds d' (List.mem_cons_of_mem _ hd')) _
      (inputs_inv_pushInput m acc d src (hds d (List.mem_cons_self _ _)) hinv)

theorem inputs_inv_outerFold (m : List (ℕ × List ℕ)) (hnd : (mapKeys m).Nodup) :
    ∀ es : List (ℕ × List ℕ), (∀ e ∈ es, e ∈ m) →
      ∀ acc : List (ℕ × List ℕ),
        (∀ q x, x ∈ (assocGet acc q).getD [] → q ∈ succList m x) →
        ∀ q x, x ∈ (assocGet (es.foldl
            (fun acc e => e.2.foldl (fun a d => pushInput a d e.1) acc) acc) q).getD [] →
          q ∈ succList m x := by
  intro es
  induction es with
  | nil => intro _ acc hinv; exact hinv
  | cons e es ih =>
    intro hes acc hinv
    rw [List.foldl_cons]
    apply ih (fun e' he' => hes e' (List.mem_cons_of_mem _ he'))
    apply inputs_inv_innerFold m e.1 e.2 ?_ acc hinv
    intro d hd
    have he : (e.1, e.2) ∈ m := by
      have := hes e (List.mem_cons_self _ _)
      simpa using this
    have hget : assocGet m e.1 = some e.2 := assocGet_of_mem_nodup m e.1 e.2 hnd he
    unfold succList
    rw [hget]
    exact hd

/-- A node recorded by `update_input_nodes_cache` as an input of `v` really
carries an edge to `v`: the converse of `mem_computeInputNodes`. -/
theorem computeInputNodes_sound (m : List (ℕ × List ℕ)) (hnd : (mapKeys m).Nodup)
    (u v : ℕ) (hu : u ∈ (assocGet (computeInputNodes m) v).getD []) :
    v ∈ succList m u := by
  unfold computeInputNodes at hu
  refine inputs_inv_outerFold m hnd m (fun e he => he) _ ?_ v u hu
  intro q x hx
  rw [assocGet_map_nil] at hx
  simp at hx

/-! ### The predecessor-summing fold computes a pointwise sum -/

theorem fold_add_sum (outputs : List (ℕ × List ℚ)) (L : ℕ) :
    ∀ (ps : List ℕ) (acc : List ℚ), acc.length = L →
      (∀ p ∈ ps, ∃ b, assocGet outputs p = some b ∧ b.length = L) →
      ps.foldl (fun acc input_id =>
          match assocGet outputs input_id with
          | some input_buffer => add_buffer input_buffer acc
          | none => acc) acc
        = (List.range L).map (fun t =>
            acc.getD t 0 + ((ps.map (fun p => (assocGet outputs p).getD [])).map
              (fun b => b.getD t 0)).sum) := by
  intro ps
  induction ps with
  | nil =>
    intro acc hlen _
    simp only [List.foldl_nil, List.map_nil, List.sum_nil, add_zero]
    rw [← hlen]
    exact (map_range_getD acc).symm
  | cons p ps ih =>
    intro acc hlen hps
    obtain ⟨b, hb, hbl⟩ := hps p (List.mem_cons_self p ps)
    rw [List.foldl_cons]
    have hstep : (match assocGet outputs p with
        | some input_buffer => add_buffer input_buffer acc
        | none => acc) = add_buffer b acc := by
      rw [hb]
    rw [hstep,
      ih (add_buffer b acc) (by rw [add_buffer_length]; exact hlen)
        (fun q hq => hps q (List.mem_cons_of_mem p hq))]
    apply List.map_congr_left
    intro t ht
    rw [List.mem_range] at ht
    rw [List.map_cons, List.map_cons, List.sum_cons,
      add_buffer_getD b acc (by rw [hbl, hlen]) t (by rw [hlen]; exact ht),
      hb, Option.getD_some]
    ring

/-- For a node other than the designated input node, the scratch buffer
built by `AudioGraph::process` is exactly the pointwise sum of the cached
output buffers of its recorded input nodes (over the length of the cleared
temporary buffer). -/
theorem presentedBuffer_fan_in (st : AudioGraphState) (hostBuf : List ℚ)
    (input_node_id : ℕ) (outputs : List (ℕ × List ℚ)) (n : ℕ)
    (hne : n ≠ input_node_id)
    (hps : ∀ p ∈ st.graph.get_input_node_ids n,
      ∃ b, assocGet outputs p = some b ∧ b.length = st.tmp_input_buffer.length) :
    presentedBuffer st hostBuf input_node_id outputs n
      = pointwiseSum st.tmp_input_buffer.length
          ((st.graph.get_input_node_ids n).map
            (fun p => (assocGet outputs p).getD [])) := by
  unfold presentedBuffer
  dsimp only
  rw [if_neg hne]
  have hacc : (clear_buffer st.tmp_input_buffer).length = st.tmp_input_buffer.length := by
    unfold clear_buffer
    exact List.length_map _ _
  rw [fold_add_sum outputs st.tmp_input_buffer.length
    (st.graph.get_input_node_ids n) (clear_buffer st.tmp_input_buffer) hacc hps]
  unfold pointwiseSum
  apply List.map_congr_left
  intro t ht
  rw [clear_buffer_eq_replicate, getD_replicate_zero, zero_add]

/-! ### Shape of one walk step -/

theorem presentedBuffer_length (st : AudioGraphState) (hostBuf : List ℚ)
    (input_node_id : ℕ) (outputs : List (ℕ × List ℚ)) (node_id : ℕ)
    (hhost : hostBuf.length = st.tmp_input_buffer.length) :
    (presentedBuffer st hostBuf input_node_id outputs node_id).length
      = st.tmp_input_buffer.length := by
  unfold presentedBuffer
  dsimp only
  have hfold : ∀ (ps : List ℕ) (acc : List ℚ),
      (ps.foldl (fun acc input_id =>
        match assocGet outputs input_id with
        | some input_buffer => add_buffer input_buffer acc
        | none => acc) acc).length = acc.length := by
    intro ps
    induction ps with
    | nil => intro acc; rfl
    | cons p ps ih =>
      intro acc
      rw [List.foldl_cons, ih]
      cases assocGet outputs p with
      | none => rfl
      | some b => exact add_buffer_length b acc
  by_cases hni : node_id = input_node_id
  · rw [if_pos hni]
    unfold copy_buffer
    exact hhost
  · rw [if_neg hni, hfold]
    unfold clear_buffer
    exact List.length_map _ _

/-- One walk step leaves the cached output of every other node alone. -/
theorem processNodeStep_other (st : AudioGraphState) (hostBuf : List ℚ)
    (input_node_id : ℕ) (outputs : List (ℕ × List ℚ)) (node_id q : ℕ)
    (hq : q ≠ node_id) :
    assocGet (processNodeStep st hostBuf input_node_id outputs node_id) q
      = assocGet outputs q := by
  unfold processNodeStep
  cases assocGet outputs node_id with
  | none => rfl
  | some b => exact assocGet_assocUpdate_ne outputs node_id q _ hq

theorem outputsAfter_succ (st : AudioGraphState) (hostBuf : List ℚ)
    (input_node_id k n : ℕ)
    (hk : st.graph.get_reverse_topological_order.get? k = some n) :
    outputsAfter st hostBuf input_node_id (k + 1)
      = processNodeStep st hostBuf input_node_id
          (outputsAfter st hostBuf input_node_id k) n := by
  unfold outputsAfter
  rw [List.get?_eq_getElem?] at hk
  rw [List.take_succ, hk, List.foldl_append]
  rfl

theorem outputsAfter_frozen (st : AudioGraphState) (hostBuf : List ℚ)
    (input_node_id k : ℕ)
    (hk : st.graph.get_reverse_topological_order.length ≤ k) :
    outputsAfter st hostBuf input_node_id k
      = outputsAfter st hostBuf input_node_id
          st.graph.get_reverse_topological_order.length := by
  unfold outputsAfter
  rw [List.take_of_length_le hk, List.take_of_length_le (Nat.le_refl _)]

/-- Once a node has been handled, the walk never touches its cached output
again (within one `process` call): the value read at any later step is the
value stored at the node's own step. -/
theorem outputsAfter_stable (st : AudioGraphState) (hostBuf : List ℚ)
    (input_node_id p i : ℕ)
    (hnd : st.graph.get_reverse_topological_order.Nodup)
    (hip : st.graph.get_reverse_topological_order.get? i = some p) :
    ∀ j, i + 1 ≤ j → j ≤ st.graph.get_reverse_topological_order.length →
      assocGet (outputsAfter st hostBuf input_node_id j) p
        = assocGet (outputsAfter st hostBuf input_node_id (i + 1)) p := by
  intro j
  induction j with
  | zero => intro h1 _; omega
  | succ j ih =>
    intro h1 h2
    by_cases hji : i + 1 = j + 1
    · have hij : i = j := by omega
      subst hij
      rfl
    · have hj1 : i + 1 ≤ j := by omega
      have hjlen : j < st.graph.get_reverse_topological_order.length := by omega
      obtain ⟨q, hq⟩ : ∃ q,
          st.graph.get_reverse_topological_order.get? j = some q := by
        rw [List.get?_eq_getElem?]
        exact ⟨_, List.getElem?_eq_getElem hjlen⟩
      have hqp : p ≠ q := by
        intro hpq
        subst hpq
        have := nodup_get?_inj _ hnd i j p hip hq
        omega
      rw [outputsAfter_succ st hostBuf input_node_id j q hq,
        processNodeStep_other st hostBuf input_node_id _ q p hqp]
      exact ih hj1 (Nat.le_of_lt hjlen)

/-! ### Every node keeps an output slot of the block length -/

theorem processNodeStep_slots (st : AudioGraphState) (hostBuf : List ℚ)
    (input_node_id : ℕ) (outputs : List (ℕ × List ℚ)) (node_id : ℕ)
    (hhost : hostBuf.length = st.tmp_input_buffer.length)
    (hfns : ∀ id f, assocGet st.nodes id = some f → ∀ b, (f b).length = b.length)
    (ids : List ℕ)
    (hslots : ∀ id ∈ ids, ∃ b, assocGet outputs id = some b
      ∧ b.length = st.tmp_input_buffer.length) :
    ∀ id ∈ ids, ∃ b,
      assocGet (processNodeStep st hostBuf input_node_id outputs node_id) id = some b
        ∧ b.length = st.tmp_input_buffer.length := by
  intro id hid
  unfold processNodeStep
  cases hslot : assocGet outputs node_id with
  | none => exact hslots id hid
  | some b0 =>
    dsimp only
    by_cases hidn : id = node_id
    · subst hidn
      refine ⟨_, assocGet_assocUpdate_self outputs id _ b0 hslot, ?_⟩
      cases hnode : assocGet st.nodes id with
      | some f =>
        dsimp only
        rw [hfns id f hnode]
        exact presentedBuffer_length st hostBuf input_node_id outputs id hhost
      | none =>
        dsimp only
        exact presentedBuffer_length st hostBuf input_node_id outputs id hhost
    · rw [assocGet_assocUpdate_ne outputs node_id id _ hidn]
      exact hslots id hid

theorem outputsAfter_slots (st : AudioGraphState) (hostBuf : List ℚ)
    (input_node_id : ℕ)
    (hhost : hostBuf.length = st.tmp_input_buffer.length)
    (hfns : ∀ id f, assocGet st.nodes id = some f → ∀ b, (f b).length = b.length)
    (ids : List ℕ)
    (hslots0 : ∀ id ∈ ids, ∃ b, assocGet st.node_outputs id = some b
      ∧ b.length = st.tmp_input_buffer.length) :
    ∀ k, ∀ id ∈ ids, ∃ b,
      assocGet (outputsAfter st hostBuf input_node_id k) id = some b
        ∧ b.length = st.tmp_input_buffer.length := by
  intro k
  induction k with
  | zero => exact hslots0
  | succ k ih =>
    by_cases hk : k < st.graph.get_reverse_topological_order.length
    · obtain ⟨q, hq⟩ : ∃ q,
          st.graph.get_reverse_topological_order.get? k = some q := by
        rw [List.get?_eq_getElem?]
        exact ⟨_, List.getElem?_eq_getElem hk⟩
      rw [outputsAfter_succ st hostBuf input_node_id k q hq]
      exact processNodeStep_slots st hostBuf input_node_id _ q hhost hfns ids ih
    · have hfr := outputsAfter_frozen st hostBuf input_node_id (k + 1) (by omega)
      have hfr' := outputsAfter_frozen st hostBuf input_node_id k (by omega)
      rw [hfr, ← hfr']
      exact ih

/-- The node-output table left behind by `AudioGraph::process` is the one
reached after the full processing order has been walked (whatever the
designated output node is). -/
theorem process_node_outputs (st : AudioGraphState) (buffer : List ℚ)
    (input_node_id output_node_id : ℕ) :
    (AudioGraph.process st buffer input_node_id output_node_id).1.node_outputs
      = outputsAfter st (clear_buffer buffer) input_node_id
          st.graph.get_reverse_topological_order.length := by
  unfold AudioGraph.process outputsAfter
  rw [List.take_length]
  dsimp only
  cases assocGet
      (st.graph.get_reverse_topological_order.foldl
        (processNodeStep st (clear_buffer buffer) input_node_id) st.node_outputs)
      output_node_id with
  | none => rfl
  | some out => rfl

theorem succList_source_mem_keys (m : List (ℕ × List ℕ)) (u v : ℕ)
    (hedge : v ∈ succList m u) : u ∈ mapKeys m := by
  cases hget : assocGet m u with
  | none =>
    unfold succList at hedge
    rw [hget] at hedge
    simp at hedge
  | some l =>
    rw [← assocGet_isSome_iff_mem_keys, hget]
    rfl

/-- C5 (confirmed): inside one `AudioGraph::process` call, for every node
`n` of the processing order other than the designated input node, (1) every
recorded predecessor of `n` has been handled at a strictly earlier step of
the same walk, (2) the scratch buffer presented to `nodes[n].process` is
the pointwise sample-wise sum of the cached output buffers
`node_outputs[p₁], …, node_outputs[pₖ]` of its predecessors as they stand
when the walk reaches `n`, (3) each of those cached buffers is exactly the
one stored at that predecessor's own step earlier in the block, (4) with no
predecessors the scratch buffer is all zeros, and (5) the walk the
statement quantifies over is the one `AudioGraph::process` performs. -/
theorem C5_fan_in_sum (st : AudioGraphState) (buffer : List ℚ)
    (input_node_id n j : ℕ)
    (hg : ReachableGraph st.graph)
    (hn : st.graph.get_reverse_topological_order.get? j = some n)
    (hne : n ≠ input_node_id)
    (hbuf : buffer.length = st.tmp_input_buffer.length)
    (hslots0 : ∀ id ∈ mapKeys st.graph.adjacency_list,
      ∃ b, assocGet st.node_outputs id = some b
        ∧ b.length = st.tmp_input_buffer.length)
    (hfns : ∀ id f, assocGet st.nodes id = some f → ∀ b, (f b).length = b.length) :
    (∀ p ∈ st.graph.get_input_node_ids n,
        ∃ i, i < j ∧ st.graph.get_reverse_topological_order.get? i = some p)
      ∧ presentedBuffer st (clear_buffer buffer) input_node_id
            (outputsAfter st (clear_buffer buffer) input_node_id j) n
          = pointwiseSum st.tmp_input_buffer.length
              ((st.graph.get_input_node_ids n).map
                (fun p => (assocGet
                  (outputsAfter st (clear_buffer buffer) input_node_id j) p).getD []))
      ∧ (∀ p ∈ st.graph.get_input_node_ids n, ∀ i, i < j →
            st.graph.get_reverse_topological_order.get? i = some p →
            assocGet (outputsAfter st (clear_buffer buffer) input_node_id j) p
              = assocGet (outputsAfter st (clear_buffer buffer) input_node_id (i + 1)) p)
      ∧ (st.graph.get_input_node_ids n = [] →
          presentedBuffer st (clear_buffer buffer) input_node_id
              (outputsAfter st (clear_buffer buffer) input_node_id j) n
            = List.replicate st.tmp_input_buffer.length 0)
      ∧ (∀ output_node_id,
          (AudioGraph.process st buffer input_node_id output_node_id).1.node_outputs
            = outputsAfter st (clear_buffer buffer) input_node_id
                st.graph.get_reverse_topological_order.length) := by
  have inv := reachable_graphInv st.graph hg
  obtain ⟨hnd, hmem, hsb⟩ :=
    topological_sort_props st.graph.adjacency_list inv.closed inv.acyclic
  have horder : st.graph.get_reverse_topological_order
      = (topological_sort st.graph.adjacency_list).reverse := by
    rw [DirectedGraph.get_reverse_topological_order, inv.rev_eq]
  have hordnd : st.graph.get_reverse_topological_order.Nodup := by
    rw [horder]
    exact List.nodup_reverse.mpr hnd
  have hjlen : j < st.graph.get_reverse_topological_order.length := by
    have h' := hn
    rw [List.get?_eq_getElem?] at h'
    exact (List.getElem?_eq_some.mp h').1
  have hpred_edge : ∀ p ∈ st.graph.get_input_node_ids n,
      n ∈ succList st.graph.adjacency_list p := by
    intro p hp
    rw [DirectedGraph.get_input_node_ids, inv.inputs_eq] at hp
    exact computeInputNodes_sound st.graph.adjacency_list inv.keys_nodup p n hp
  have hearlier : ∀ p ∈ st.graph.get_input_node_ids n,
      ∃ i, i < j ∧ st.graph.get_reverse_topological_order.get? i = some p := by
    intro p hp
    have hedge := hpred_edge p hp
    have hpk : p ∈ mapKeys st.graph.adjacency_list :=
      succList_source_mem_keys _ p n hedge
    have hpt : p ∈ topological_sort st.graph.adjacency_list := (hmem p).mpr hpk
    obtain ⟨ip, hip⟩ := List.mem_iff_get?.mp hpt
    obtain ⟨jn, hjnlt, hjn⟩ := hsb ip p hip n hedge
    have hiplt : ip < (topological_sort st.graph.adjacency_list).length := by
      have h' := hip
      rw [List.get?_eq_getElem?] at h'
      exact (List.getElem?_eq_some.mp h').1
    have hbefore : appearsBefore (topological_sort st.graph.adjacency_list) n p :=
      ⟨jn, by omega, ip, hiplt, hjnlt, hjn, hip⟩
    have hrev := appearsBefore_reverse _ n p hbefore
    rw [← horder] at hrev
    obtain ⟨i2, hi2, j2, hj2, hij2, hp2, hn2⟩ := hrev
    have hj2j : j2 = j := nodup_get?_inj _ hordnd j2 j n hn2 hn
    exact ⟨i2, by omega, hp2⟩
  have hhost : (clear_buffer buffer).length = st.tmp_input_buffer.length := by
    unfold clear_buffer
    rw [List.length_map]
    exact hbuf
  have hpredslots : ∀ p ∈ st.graph.get_input_node_ids n, ∃ b,
      assocGet (outputsAfter st (clear_buffer buffer) input_node_id j) p = some b
        ∧ b.length = st.tmp_input_buffer.length := by
    intro p hp
    exact outputsAfter_slots st (clear_buffer buffer) input_node_id hhost hfns
      (mapKeys st.graph.adjacency_list) hslots0 j p
      (succList_source_mem_keys _ p n (hpred_edge p hp))
  have hfan := presentedBuffer_fan_in st (clear_buffer buffer) input_node_id
    (outputsAfter st (clear_buffer buffer) input_node_id j) n hne hpredslots
  refine ⟨hearlier, hfan, ?_, ?_, ?_⟩
  · intro p _ i hij hi
    exact outputsAfter_stable st (clear_buffer buffer) input_node_id p i hordnd hi j
      (by omega) (Nat.le_of_lt hjlen)
  · intro hnil
    rw [hfan, hnil, List.map_nil]
    exact pointwiseSum_nil _
  · intro output_node_id
    exact process_node_outputs st buffer input_node_id output_node_id

/-- An identity node for the C5 scenario. -/
def C5_node : AGNode := fun b => b

/-- A prepared engine state around the chain graph 1 → 2 → 3: stereo block
of two samples, every node an identity, every output slot allocated. -/
def C5_state : AudioGraphState :=
  { nodes := [(1, C5_node), (2, C5_node), (3, C5_node)]
    graph := chainGraph
    next_node_id := 4
    sample_rate := 44100
    max_buffer_size := 2
    node_outputs := [(1, [0, 0]), (2, [0, 0]), (3, [0, 0])]
    tmp_input_buffer := [0, 0]
    num_channels := 1 }

/-- C5 witness: the fan-in theorem applied to node 2 of the chain graph
(step 1 of the processing order `[1, 2, 3]`) with host buffer `[5, 7]` and
the (absent) input node 0. -/
theorem C5_witness :
    ReachableGraph C5_state.graph
      ∧ C5_state.graph.get_reverse_topological_order.get? 1 = some 2
      ∧ (2 : ℕ) ≠ 0
      ∧ ([5, 7] : List ℚ).length = C5_state.tmp_input_buffer.length
      ∧ ((∀ p ∈ C5_state.graph.get_input_node_ids 2,
            ∃ i, i < 1 ∧ C5_state.graph.get_reverse_topological_order.get? i = some p)
          ∧ presentedBuffer C5_state (clear_buffer [5, 7]) 0
                (outputsAfter C5_state (clear_buffer [5, 7]) 0 1) 2
              = pointwiseSum C5_state.tmp_input_buffer.length
                  ((C5_state.graph.get_input_node_ids 2).map
                    (fun p => (assocGet
                      (outputsAfter C5_state (clear_buffer [5, 7]) 0 1) p).getD []))
          ∧ (∀ p ∈ C5_state.graph.get_input_node_ids 2, ∀ i, i < 1 →
                C5_state.graph.get_reverse_topological_order.get? i = some p →
                assocGet (outputsAfter C5_state (clear_buffer [5, 7]) 0 1) p
                  = assocGet (outputsAfter C5_state (clear_buffer [5, 7]) 0 (i + 1)) p)
          ∧ (C5_state.graph.get_input_node_ids 2 = [] →
              presentedBuffer C5_state (clear_buffer [5, 7]) 0
                  (outputsAfter C5_state (clear_buffer [5, 7]) 0 1) 2
                = List.replicate C5_state.tmp_input_buffer.length 0)
          ∧ (∀ output_node_id,
              (AudioGraph.process C5_state [5, 7] 0 output_node_id).1.node_outputs
                = outputsAfter C5_state (clear_buffer [5, 7]) 0
                    C5_state.graph.get_reverse_topological_order.length)) := by
  have hreach : ReachableGraph C5_state.graph :=
    ⟨[GraphOp.addNode 1, GraphOp.addNode 2, GraphOp.addNode 3,
      GraphOp.addEdge 1 2, GraphOp.addEdge 2 3], rfl⟩
  have hslots0 : ∀ id ∈ mapKeys C5_state.graph.adjacency_list,
      ∃ b, assocGet C5_state.node_outputs id = some b
        ∧ b.length = C5_state.tmp_input_buffer.length := by
    have hkeys : mapKeys C5_state.graph.adjacency_list = [1, 2, 3] := by decide
    intro id hid
    rw [hkeys] at hid
    fin_cases hid
    · exact ⟨[0, 0], rfl, rfl⟩
    · exact ⟨[0, 0], rfl, rfl⟩
    · exact ⟨[0, 0], rfl, rfl⟩
  have hfns : ∀ id f, assocGet C5_state.nodes id = some f →
      ∀ b, (f b).length = b.length := by
    intro id f hf b
    have hf' : assocGet [(1, C5_node), (2, C5_node), (3, C5_node)] id = some f := hf
    simp only [assocGet] at hf'
    split_ifs at hf' with h1 h2 h3
    · cases hf'
      rfl
    · cases hf'
      rfl
    · cases hf'
      rfl
  exact ⟨hreach, by decide, by decide, by decide,
    C5_fan_in_sum C5_state [5, 7] 0 2 1 hreach (by decide) (by decide) (by decide)
      hslots0 hfns⟩
